import Mathlib

/-!
Verification of the ESP-EQ real-time DSP chain (subsonic high-pass, 5-band
equalizer, pre-gain, look-ahead limiter) against its specification.

The C sources are shallowly embedded as follows.

* `int32_t` / `int64_t` samples and Q24 coefficients become `ℤ`, with the
  C arithmetic right shift `>> n` on `int64_t` modelled as floor division by
  `2^n` (`asr`), and the narrowing cast `(int32_t)` modelled as wrap-around
  (`toInt32`).
* `float` values become `ℚ`, with every C float operation rounded through
  `fl32`, an executable model of IEEE-754 binary32 round-to-nearest-even in
  the normal range (the exponent range is unbounded in the model; all values
  reached by this program are far from overflow and from the subnormal
  range).  Transcendental library calls (`expf`, `powf`, `sinf`, `cosf`,
  `log10f`) do not have closed rational values; the model takes their results
  as parameters constrained by interval hypotheses where needed.
* Buffers of interleaved stereo samples become `List (ℤ × ℤ)` (one element
  per L/R frame, matching the `i += 2` loops of the sources), except for the
  pre-gain stage whose loop runs over single samples and is modelled on
  `List ℤ`.

Because this Mathlib snapshot marks `Rat.add`, `Rat.sub`, `Rat.mul` and
`Rat.inv` `@[irreducible]`, the executable model uses the kernel-reducible
wrappers `qadd`, `qsub`, `qmul`, `qdiv` built on `Rat.divInt`; the lemmas
`qadd_eq`, `qsub_eq`, `qmul_eq`, `qdiv_eq` rewrite them to the ordinary field
operations for the algebraic proofs.
-/

/-- C arithmetic right shift on `int64_t` (`>> n` with a non-negative
left operand or the GCC arithmetic-shift behaviour on a negative one):
floor division by `2 ^ n`. -/
def asr (v : ℤ) (n : ℕ) : ℤ := Int.fdiv v (2 ^ n)

/-- Narrowing conversion `(int32_t)` from a wider integer: two's-complement
wrap-around into `[-2^31, 2^31)`. -/
def toInt32 (v : ℤ) : ℤ := (v + 2 ^ 31) % 2 ^ 32 - 2 ^ 31

/-- The saturation used by `pregain_process` and `limiter_process`:
clamp an `int64_t` value into the `int32_t` range. -/
def clampI32 (v : ℤ) : ℤ :=
  if v > 2147483647 then 2147483647
  else if v < -2147483648 then -2147483648
  else v

/-- C conversion from a real (float) value to an integer type: truncation
toward zero. -/
def truncQ (q : ℚ) : ℤ := Int.tdiv q.num (q.den : ℤ)

/-- Kernel-reducible addition on `ℚ` (equal to `+` by `qadd_eq`). -/
def qadd (a b : ℚ) : ℚ :=
  Rat.divInt (a.num * (b.den : ℤ) + b.num * (a.den : ℤ)) ((a.den : ℤ) * (b.den : ℤ))

/-- Kernel-reducible negation on `ℚ` (equal to `Neg.neg` by `qneg_eq`). -/
def qneg (a : ℚ) : ℚ := Rat.divInt (-a.num) (a.den : ℤ)

/-- Kernel-reducible subtraction on `ℚ` (equal to `-` by `qsub_eq`). -/
def qsub (a b : ℚ) : ℚ := qadd a (qneg b)

/-- Kernel-reducible multiplication on `ℚ` (equal to `*` by `qmul_eq`). -/
def qmul (a b : ℚ) : ℚ := Rat.divInt (a.num * b.num) ((a.den : ℤ) * (b.den : ℤ))

/-- Kernel-reducible division on `ℚ` (equal to `/` by `qdiv_eq`). -/
def qdiv (a b : ℚ) : ℚ := Rat.divInt (a.num * (b.den : ℤ)) ((a.den : ℤ) * b.num)

theorem qadd_eq (a b : ℚ) : qadd a b = a + b := by
  rw [qadd, Rat.divInt_eq_div]
  push_cast
  rw [add_div, div_mul_eq_div_div_swap, mul_comm (a.den : ℚ) (b.den : ℚ),
    div_mul_eq_div_div_swap, mul_div_assoc, div_self (by exact_mod_cast b.den_nz),
    mul_one, mul_div_assoc, div_self (by exact_mod_cast a.den_nz), mul_one,
    Rat.num_div_den, Rat.num_div_den]

theorem qneg_eq (a : ℚ) : qneg a = -a := by
  rw [qneg, Rat.divInt_eq_div]
  push_cast
  rw [neg_div, Rat.num_div_den]

theorem qsub_eq (a b : ℚ) : qsub a b = a - b := by
  rw [qsub, qadd_eq, qneg_eq, sub_eq_add_neg]

theorem qmul_eq (a b : ℚ) : qmul a b = a * b := by
  rw [qmul, Rat.divInt_eq_div]
  push_cast
  conv_rhs => rw [← Rat.num_div_den a, ← Rat.num_div_den b]
  rw [div_mul_div_comm]

theorem qdiv_eq (a b : ℚ) : qdiv a b = a / b := by
  rcases eq_or_ne b 0 with hb | hb
  · subst hb
    simp [qdiv, Rat.divInt_eq_div]
  · rw [qdiv, Rat.divInt_eq_div, div_eq_mul_inv a b]
    push_cast
    conv_rhs => rw [← Rat.num_div_den a, ← Rat.num_div_den b]
    rw [inv_div, div_mul_div_comm]

/-- Fuel-driven binary logarithm on `ℕ`: `nlog2A f n = ⌊log₂ n⌋` whenever
`1 ≤ n ≤ 2 ^ f`.  Plain structural recursion so that the kernel can
evaluate it. -/
def nlog2A : ℕ → ℕ → ℕ
  | 0, _ => 0
  | f + 1, n => if n < 2 then 0 else nlog2A f (n / 2) + 1

/-- Floor of the binary logarithm of a positive natural number. -/
def nlog2 (n : ℕ) : ℕ := nlog2A n n

theorem nlog2A_spec : ∀ f n, 1 ≤ n → n ≤ 2 ^ f →
    2 ^ nlog2A f n ≤ n ∧ n < 2 ^ (nlog2A f n + 1) := by
  intro f
  induction f with
  | zero =>
    intro n h1 h2
    have : n = 1 := le_antisymm h2 h1
    subst this
    simp [nlog2A]
  | succ f ih =>
    intro n h1 h2
    by_cases h : n < 2
    · have : n = 1 := by omega
      subst this
      simp [nlog2A]
    · have h1' : 1 ≤ n / 2 := by omega
      have h2' : n / 2 ≤ 2 ^ f := by
        have : n ≤ 2 * 2 ^ f := by
          calc n ≤ 2 ^ (f + 1) := h2
          _ = 2 * 2 ^ f := by ring
        omega
      obtain ⟨hl, hr⟩ := ih (n / 2) h1' h2'
      have hstep : nlog2A (f + 1) n = nlog2A f (n / 2) + 1 := by
        simp [nlog2A, h]
      rw [hstep]
      constructor
      · have : 2 ^ (nlog2A f (n / 2) + 1) = 2 * 2 ^ nlog2A f (n / 2) := by ring
        rw [this]
        omega
      · have : 2 ^ (nlog2A f (n / 2) + 1 + 1) = 2 * 2 ^ (nlog2A f (n / 2) + 1) := by
          ring
        rw [this]
        omega

theorem nlog2_spec (n : ℕ) (h : 1 ≤ n) :
    2 ^ nlog2 n ≤ n ∧ n < 2 ^ (nlog2 n + 1) :=
  nlog2A_spec n n h (le_of_lt n.lt_two_pow)

/-- Executable power of two on `ℚ` with integer exponent
(equal to `(2 : ℚ) ^ e` by `zpow2_eq`). -/
def zpow2 (e : ℤ) : ℚ :=
  if 0 ≤ e then Rat.divInt (2 ^ e.toNat) 1 else Rat.divInt 1 (2 ^ (-e).toNat)

theorem zpow2_eq (e : ℤ) : zpow2 e = (2 : ℚ) ^ e := by
  rw [zpow2]
  split
  · next h =>
    rw [Rat.divInt_eq_div]
    push_cast
    rw [div_one, ← zpow_natCast (2 : ℚ) e.toNat, Int.toNat_of_nonneg h]
  · next h =>
    rw [Rat.divInt_eq_div]
    push_cast
    rw [one_div, ← zpow_natCast (2 : ℚ) (-e).toNat,
      Int.toNat_of_nonneg (by omega : (0:ℤ) ≤ -e), ← zpow_neg, neg_neg]

theorem zpow2_pos (e : ℤ) : 0 < zpow2 e := by
  rw [zpow2_eq]
  positivity

/-- Exponent of the binade containing a positive rational:
`zpow2 (qexp q) ≤ q < zpow2 (qexp q + 1)` (by `qexp_spec`). -/
def qexp (q : ℚ) : ℤ :=
  if q < zpow2 ((nlog2 q.num.natAbs : ℤ) - (nlog2 q.den : ℤ))
  then (nlog2 q.num.natAbs : ℤ) - (nlog2 q.den : ℤ) - 1
  else if q < zpow2 ((nlog2 q.num.natAbs : ℤ) - (nlog2 q.den : ℤ) + 1)
  then (nlog2 q.num.natAbs : ℤ) - (nlog2 q.den : ℤ)
  else (nlog2 q.num.natAbs : ℤ) - (nlog2 q.den : ℤ) + 1

theorem qexp_spec (q : ℚ) (hq : 0 < q) :
    zpow2 (qexp q) ≤ q ∧ q < zpow2 (qexp q + 1) := by
  have hnum : 0 < q.num := Rat.num_pos.mpr hq
  have hden : 0 < q.den := Nat.pos_of_ne_zero q.den_nz
  have h1 : 1 ≤ q.num.natAbs := Int.natAbs_pos.mpr hnum.ne'
  obtain ⟨hA1, hA2⟩ := nlog2_spec q.num.natAbs h1
  obtain ⟨hD1, hD2⟩ := nlog2_spec q.den hden
  have hqval : q = (q.num.natAbs : ℚ) / (q.den : ℚ) := by
    rw [← Int.cast_natCast, Int.natAbs_of_nonneg hnum.le, Rat.num_div_den]
  have hdenQ : (0 : ℚ) < (q.den : ℚ) := by exact_mod_cast hden
  have hk1 : (2 : ℚ) ^ ((nlog2 q.num.natAbs : ℤ)) ≤ (q.num.natAbs : ℚ) := by
    rw [zpow_natCast]
    exact_mod_cast hA1
  have hk2 : (q.num.natAbs : ℚ) < (2 : ℚ) ^ ((nlog2 q.num.natAbs : ℤ) + 1) := by
    have : ((nlog2 q.num.natAbs : ℤ) + 1) = ((nlog2 q.num.natAbs + 1 : ℕ) : ℤ) := by
      push_cast
      ring
    rw [this, zpow_natCast]
    exact_mod_cast hA2
  have hk3 : (2 : ℚ) ^ ((nlog2 q.den : ℤ)) ≤ (q.den : ℚ) := by
    rw [zpow_natCast]
    exact_mod_cast hD1
  have hk4 : (q.den : ℚ) < (2 : ℚ) ^ ((nlog2 q.den : ℤ) + 1) := by
    have : ((nlog2 q.den : ℤ) + 1) = ((nlog2 q.den + 1 : ℕ) : ℤ) := by
      push_cast
      ring
    rw [this, zpow_natCast]
    exact_mod_cast hD2
  set A := (nlog2 q.num.natAbs : ℤ)
  set D := (nlog2 q.den : ℤ)
  have hq_lo : zpow2 (A - D - 1) < q := by
    rw [zpow2_eq, hqval, lt_div_iff₀ hdenQ]
    calc (2:ℚ) ^ (A - D - 1) * (q.den : ℚ)
        < (2:ℚ) ^ (A - D - 1) * (2 : ℚ) ^ (D + 1) := by
          exact mul_lt_mul_of_pos_left hk4 (by positivity)
      _ = (2:ℚ) ^ A := by
          rw [← zpow_add₀ (by norm_num : (2:ℚ) ≠ 0)]
          congr 1
          ring
      _ ≤ (q.num.natAbs : ℚ) := hk1
  have hq_hi : q < zpow2 (A - D + 1) := by
    rw [zpow2_eq, hqval, div_lt_iff₀ hdenQ]
    calc (q.num.natAbs : ℚ) < (2:ℚ) ^ (A + 1) := hk2
      _ = (2:ℚ) ^ (A - D + 1) * (2:ℚ) ^ D := by
          rw [← zpow_add₀ (by norm_num : (2:ℚ) ≠ 0)]
          congr 1
          ring
      _ ≤ (2:ℚ) ^ (A - D + 1) * (q.den : ℚ) := by
          exact mul_le_mul_of_nonneg_left hk3 (by positivity)
  have hv : qexp q =
      if q < zpow2 (A - D) then A - D - 1
      else if q < zpow2 (A - D + 1) then A - D else A - D + 1 := rfl
  by_cases hc1 : q < zpow2 (A - D)
  · rw [hv, if_pos hc1]
    refine ⟨le_of_lt ?_, ?_⟩
    · exact hq_lo
    · have he : A - D - 1 + 1 = A - D := by ring
      rw [he]
      exact hc1
  · by_cases hc2 : q < zpow2 (A - D + 1)
    · rw [hv, if_neg hc1, if_pos hc2]
      exact ⟨not_lt.mp hc1, hc2⟩
    · exact absurd hq_hi hc2

/-- Round a rational to the nearest integer, ties to even — the IEEE-754
default rounding, applied to the scaled significand in `fl32pos`. -/
def rhe (q : ℚ) : ℤ :=
  if q < Rat.divInt (2 * ⌊q⌋ + 1) 2 then ⌊q⌋
  else if Rat.divInt (2 * ⌊q⌋ + 1) 2 < q then ⌊q⌋ + 1
  else if ⌊q⌋ % 2 = 0 then ⌊q⌋ else ⌊q⌋ + 1

theorem rhe_cases (q : ℚ) : rhe q = ⌊q⌋ ∨ rhe q = ⌊q⌋ + 1 := by
  rw [rhe]
  split_ifs <;> simp

theorem floor_le_rhe (q : ℚ) : ⌊q⌋ ≤ rhe q := by
  rcases rhe_cases q with h | h <;> omega

theorem rhe_le_floor_add_one (q : ℚ) : rhe q ≤ ⌊q⌋ + 1 := by
  rcases rhe_cases q with h | h <;> omega

theorem rhe_intCast (m : ℤ) : rhe (m : ℚ) = m := by
  have hf : ⌊(m : ℚ)⌋ = m := Int.floor_intCast m
  rw [rhe, hf, if_pos]
  rw [Rat.divInt_eq_div]
  push_cast
  rw [lt_div_iff₀ (by norm_num : (0:ℚ) < 2)]
  linarith

theorem rhe_mono {a b : ℚ} (h : a ≤ b) : rhe a ≤ rhe b := by
  rcases lt_or_le ⌊a⌋ ⌊b⌋ with hf | hf
  · calc rhe a ≤ ⌊a⌋ + 1 := rhe_le_floor_add_one a
      _ ≤ ⌊b⌋ := by omega
      _ ≤ rhe b := floor_le_rhe b
  · have hf' : ⌊a⌋ = ⌊b⌋ := le_antisymm (Int.floor_le_floor h) hf
    rw [rhe, rhe, ← hf']
    split_ifs <;> first | omega | linarith

theorem rhe_le_intCast {q : ℚ} {m : ℤ} (h : q ≤ (m : ℚ)) : rhe q ≤ m := by
  calc rhe q ≤ rhe (m : ℚ) := rhe_mono h
    _ = m := rhe_intCast m

theorem intCast_le_rhe {q : ℚ} {m : ℤ} (h : (m : ℚ) ≤ q) : m ≤ rhe q := by
  calc m = rhe (m : ℚ) := (rhe_intCast m).symm
    _ ≤ rhe q := rhe_mono h

/-- Rounding of a positive rational to the 24-bit-significand grid of its
own binade. -/
def fl32pos (a : ℚ) : ℚ :=
  qmul (Rat.divInt (rhe (qmul a (zpow2 (23 - qexp a)))) 1) (zpow2 (qexp a - 23))

/-- Executable model of IEEE-754 binary32 rounding (round to nearest, ties
to even) with unbounded exponent range: no overflow or subnormal behaviour
is modelled, which is faithful for this program since every float value it
computes is normal and far below overflow. -/
def fl32 (q : ℚ) : ℚ :=
  if q = 0 then 0 else if q < 0 then qneg (fl32pos (qneg q)) else fl32pos q

theorem fl32pos_eq (a : ℚ) :
    fl32pos a = (rhe (a * (2:ℚ) ^ ((23 : ℤ) - qexp a)) : ℚ) * (2:ℚ) ^ (qexp a - 23) := by
  simp only [fl32pos, qmul_eq, zpow2_eq, Rat.divInt_eq_div]
  norm_num

theorem fl32pos_nonneg {a : ℚ} (ha : 0 ≤ a) : 0 ≤ fl32pos a := by
  rw [fl32pos_eq]
  have h0 : (0 : ℤ) ≤ rhe (a * (2:ℚ) ^ ((23 : ℤ) - qexp a)) := by
    apply intCast_le_rhe
    push_cast
    positivity
  have h2 : (0:ℚ) < (2:ℚ) ^ (qexp a - 23) := by positivity
  have h0' : (0:ℚ) ≤ (rhe (a * (2:ℚ) ^ ((23 : ℤ) - qexp a)) : ℚ) := by exact_mod_cast h0
  positivity

theorem qexp_mono {a b : ℚ} (ha : 0 < a) (h : a ≤ b) : qexp a ≤ qexp b := by
  have hb : 0 < b := lt_of_lt_of_le ha h
  obtain ⟨ha1, _⟩ := qexp_spec a ha
  obtain ⟨_, hb2⟩ := qexp_spec b hb
  rw [zpow2_eq] at ha1 hb2
  by_contra hcon
  push_neg at hcon
  have hstep : qexp b + 1 ≤ qexp a := by omega
  have h1 : (2:ℚ) ^ (qexp b + 1) ≤ (2:ℚ) ^ (qexp a) :=
    zpow_le_zpow_right₀ (by norm_num) hstep
  linarith

theorem fl32pos_mono {a b : ℚ} (ha : 0 < a) (h : a ≤ b) :
    fl32pos a ≤ fl32pos b := by
  have hb : 0 < b := lt_of_lt_of_le ha h
  obtain ⟨ha1, ha2⟩ := qexp_spec a ha
  obtain ⟨hb1, hb2⟩ := qexp_spec b hb
  rw [zpow2_eq] at ha1 ha2 hb1 hb2
  rcases eq_or_lt_of_le (qexp_mono ha h) with he | he
  · rw [fl32pos_eq, fl32pos_eq, ← he]
    have hrm : rhe (a * (2:ℚ) ^ ((23 : ℤ) - qexp a)) ≤
        rhe (b * (2:ℚ) ^ ((23 : ℤ) - qexp a)) :=
      rhe_mono (mul_le_mul_of_nonneg_right h (by positivity))
    have hrm' : ((rhe (a * (2:ℚ) ^ ((23 : ℤ) - qexp a))) : ℚ) ≤
        ((rhe (b * (2:ℚ) ^ ((23 : ℤ) - qexp a))) : ℚ) := by exact_mod_cast hrm
    exact mul_le_mul_of_nonneg_right hrm' (by positivity)
  · have hu : fl32pos a ≤ (2:ℚ) ^ (qexp a + 1) := by
      rw [fl32pos_eq]
      have hr : rhe (a * (2:ℚ) ^ ((23 : ℤ) - qexp a)) ≤ ((2:ℤ) ^ (24:ℕ)) := by
        apply rhe_le_intCast
        have hmul : a * (2:ℚ) ^ ((23 : ℤ) - qexp a) ≤
            (2:ℚ) ^ (qexp a + 1) * (2:ℚ) ^ ((23 : ℤ) - qexp a) :=
          mul_le_mul_of_nonneg_right (le_of_lt ha2) (by positivity)
        calc a * (2:ℚ) ^ ((23 : ℤ) - qexp a) ≤
            (2:ℚ) ^ (qexp a + 1) * (2:ℚ) ^ ((23 : ℤ) - qexp a) := hmul
          _ = (2:ℚ) ^ ((24:ℤ)) := by
            rw [← zpow_add₀ (by norm_num : (2:ℚ) ≠ 0)]
            congr 1
            ring
          _ = (((2:ℤ) ^ (24:ℕ) : ℤ) : ℚ) := by push_cast; norm_num
      have hr' : ((rhe (a * (2:ℚ) ^ ((23 : ℤ) - qexp a))) : ℚ) ≤ (2:ℚ) ^ (24:ℤ) := by
        push_cast at hr ⊢
        norm_num at hr ⊢
        exact_mod_cast hr
      calc ((rhe (a * (2:ℚ) ^ ((23 : ℤ) - qexp a))) : ℚ) * (2:ℚ) ^ (qexp a - 23)
          ≤ (2:ℚ) ^ (24:ℤ) * (2:ℚ) ^ (qexp a - 23) :=
            mul_le_mul_of_nonneg_right hr' (by positivity)
        _ = (2:ℚ) ^ (qexp a + 1) := by
            rw [← zpow_add₀ (by norm_num : (2:ℚ) ≠ 0)]
            congr 1
            ring
    have hl : (2:ℚ) ^ (qexp b) ≤ fl32pos b := by
      rw [fl32pos_eq]
      have hr : ((2:ℤ) ^ (23:ℕ)) ≤ rhe (b * (2:ℚ) ^ ((23 : ℤ) - qexp b)) := by
        apply intCast_le_rhe
        have hmul : (2:ℚ) ^ (qexp b) * (2:ℚ) ^ ((23 : ℤ) - qexp b) ≤
            b * (2:ℚ) ^ ((23 : ℤ) - qexp b) :=
          mul_le_mul_of_nonneg_right hb1 (by positivity)
        calc (((2:ℤ) ^ (23:ℕ) : ℤ) : ℚ) = (2:ℚ) ^ ((23:ℤ)) := by push_cast; norm_num
          _ = (2:ℚ) ^ (qexp b) * (2:ℚ) ^ ((23 : ℤ) - qexp b) := by
            rw [← zpow_add₀ (by norm_num : (2:ℚ) ≠ 0)]
            congr 1
            ring
          _ ≤ b * (2:ℚ) ^ ((23 : ℤ) - qexp b) := hmul
      have hr' : (2:ℚ) ^ (23:ℤ) ≤ ((rhe (b * (2:ℚ) ^ ((23 : ℤ) - qexp b))) : ℚ) := by
        push_cast at hr ⊢
        norm_num at hr ⊢
        exact_mod_cast hr
      calc (2:ℚ) ^ (qexp b) = (2:ℚ) ^ (23:ℤ) * (2:ℚ) ^ (qexp b - 23) := by
            rw [← zpow_add₀ (by norm_num : (2:ℚ) ≠ 0)]
            congr 1
            ring
        _ ≤ ((rhe (b * (2:ℚ) ^ ((23 : ℤ) - qexp b))) : ℚ) * (2:ℚ) ^ (qexp b - 23) :=
            mul_le_mul_of_nonneg_right hr' (by positivity)
    have hmid : (2:ℚ) ^ (qexp a + 1) ≤ (2:ℚ) ^ (qexp b) :=
      zpow_le_zpow_right₀ (by norm_num) (by omega)
    linarith

theorem fl32_of_pos {a : ℚ} (h : 0 < a) : fl32 a = fl32pos a := by
  rw [fl32, if_neg h.ne', if_neg (not_lt.mpr h.le)]

theorem fl32_of_neg {a : ℚ} (h : a < 0) : fl32 a = qneg (fl32pos (qneg a)) := by
  rw [fl32, if_neg h.ne, if_pos h]

theorem fl32_zero : fl32 0 = 0 := by
  rw [fl32, if_pos rfl]

theorem fl32_nonneg {q : ℚ} (h : 0 ≤ q) : 0 ≤ fl32 q := by
  rcases eq_or_lt_of_le h with h0 | h0
  · rw [← h0, fl32_zero]
  · rw [fl32_of_pos h0]
    exact fl32pos_nonneg h0.le

theorem fl32_mono {a b : ℚ} (h : a ≤ b) : fl32 a ≤ fl32 b := by
  rcases lt_trichotomy a 0 with ha | ha | ha
  · rcases lt_trichotomy b 0 with hb | hb | hb
    · rw [fl32_of_neg ha, fl32_of_neg hb, qneg_eq, qneg_eq, qneg_eq, qneg_eq]
      have : -b ≤ -a := neg_le_neg h
      have hbpos : 0 < -b := by linarith
      exact neg_le_neg (fl32pos_mono hbpos this)
    · rw [fl32_of_neg ha, hb, fl32_zero, qneg_eq, qneg_eq]
      have : 0 ≤ fl32pos (-a) := fl32pos_nonneg (by linarith)
      linarith
    · rw [fl32_of_neg ha, fl32_of_pos hb, qneg_eq, qneg_eq]
      have h1 : 0 ≤ fl32pos (-a) := fl32pos_nonneg (by linarith)
      have h2 : 0 ≤ fl32pos b := fl32pos_nonneg hb.le
      linarith
  · rw [ha, fl32_zero]
    exact fl32_nonneg (ha ▸ h)
  · rw [fl32_of_pos ha, fl32_of_pos (lt_of_lt_of_le ha h)]
    exact fl32pos_mono ha h

theorem fl32_le_rep {a B : ℚ} (h : a ≤ B) (hB : fl32 B = B) : fl32 a ≤ B := by
  calc fl32 a ≤ fl32 B := fl32_mono h
    _ = B := hB

theorem rep_le_fl32 {a B : ℚ} (h : B ≤ a) (hB : fl32 B = B) : B ≤ fl32 a := by
  calc B = fl32 B := hB.symm
    _ ≤ fl32 a := fl32_mono h

/-- Generic stateful map used by every `*_process` loop: threads the stage
state through the buffer, returning the rewritten buffer and the final
state. -/
def procMap {σ α β : Type} (f : σ → α → β × σ) : σ → List α → List β × σ
  | s, [] => ([], s)
  | s, x :: xs =>
    let r := f s x
    let rest := procMap f r.2 xs
    (r.1 :: rest.1, rest.2)

/-- Q24 biquad coefficients (`biquad_coeffs_t` of equalizer.h, identical to
`subsonic_biquad_coeffs_t` of subsonic.h; `a0` is normalised away). -/
structure biquad_coeffs_t where
  b0 : ℤ
  b1 : ℤ
  b2 : ℤ
  a1 : ℤ
  a2 : ℤ
deriving DecidableEq

/-- Per-channel biquad history (`biquad_state_t` / `subsonic_biquad_state_t`). -/
structure biquad_state_t where
  x1 : ℤ
  x2 : ℤ
  y1 : ℤ
  y2 : ℤ
deriving DecidableEq

/-- One biquad evaluation exactly as written in `equalizer_process`
(equalizer.cpp lines 118-132) and `subsonic_process` (subsonic.cpp lines
105-119), which contain the same code: each 64-bit product is shifted right
by 24 on its own, the five shifted terms are summed, the sum is narrowed to
`int32_t`, and the history is shifted `x2 ← x1, x1 ← x, y2 ← y1, y1 ← y`. -/
def biquad_step (c : biquad_coeffs_t) (s : biquad_state_t) (input : ℤ) :
    ℤ × biquad_state_t :=
  let temp := asr (c.b0 * input) 24 + asr (c.b1 * s.x1) 24 + asr (c.b2 * s.x2) 24
    - asr (c.a1 * s.y1) 24 - asr (c.a2 * s.y2) 24
  let output := toInt32 temp
  (output, ⟨input, s.x1, output, s.y1⟩)

/-- One interleaved stereo frame: the left sample through the left state,
then the right sample through the right state (the two channels are
independent). -/
def biquad_pair_step (c : biquad_coeffs_t)
    (s : biquad_state_t × biquad_state_t) (p : ℤ × ℤ) :
    (ℤ × ℤ) × (biquad_state_t × biquad_state_t) :=
  let l := biquad_step c s.1 p.1
  let r := biquad_step c s.2 p.2
  ((l.1, r.1), (l.2, r.2))

/-- One equalizer band pass over the whole interleaved buffer (the inner
sample loop of `equalizer_process` at a fixed band). -/
def band_pass (c : biquad_coeffs_t) (sl sr : biquad_state_t)
    (buf : List (ℤ × ℤ)) : List (ℤ × ℤ) × (biquad_state_t × biquad_state_t) :=
  procMap (biquad_pair_step c) (sl, sr) buf

/-- `equalizer_t` of equalizer.h (the five per-band arrays become lists). -/
structure equalizer_t where
  coeffs : List biquad_coeffs_t
  state_left : List biquad_state_t
  state_right : List biquad_state_t
  gain_db : List ℚ
  pre_gain_db : ℚ
  enabled : Bool
deriving DecidableEq

/-- The unoptimised five-band cascade: the band loop of `equalizer_process`
(equalizer.cpp lines 106-153), each band rewriting the whole buffer in
sequence with its own pair of channel states. -/
def equalizer_cascade : List biquad_coeffs_t → List biquad_state_t →
    List biquad_state_t → List (ℤ × ℤ) →
    List (ℤ × ℤ) × (List biquad_state_t × List biquad_state_t)
  | c :: cs, sl :: sls, sr :: srs, buf =>
    let r1 := band_pass c sl sr buf
    let r2 := equalizer_cascade cs sls srs r1.1
    (r2.1, (r1.2.1 :: r2.2.1, r1.2.2 :: r2.2.2))
  | _, _, _, buf => (buf, ([], []))

/-- `equalizer_process` (equalizer.cpp lines 90-154): bypass when disabled,
flat fast path returning the buffer untouched when every band gain is
exactly `0.0f`, otherwise the five-band cascade. -/
def equalizer_process (eq : equalizer_t) (buf : List (ℤ × ℤ)) :
    List (ℤ × ℤ) × equalizer_t :=
  if !eq.enabled then (buf, eq)
  else if eq.gain_db.all (fun g => decide (g = 0)) then (buf, eq)
  else
    let r := equalizer_cascade eq.coeffs eq.state_left eq.state_right buf
    (r.1, { eq with state_left := r.2.1, state_right := r.2.2 })

/-- The C cast `(int32_t)(x * 16777216.0f)` used to quantize one float
coefficient to Q24 (the product of a float by the exact power of two
16777216 is itself exact in float, so only the final truncation matters). -/
def quantizeQ24 (x : ℚ) : ℤ := truncQ (fl32 (qmul x (Rat.divInt 16777216 1)))

/-- Packaging of the five quantized coefficients computed by
`calculate_peaking_filter` / `calculate_highpass_filter` from their
floating-point values. -/
def coeffs_of_floats (f : ℚ × ℚ × ℚ × ℚ × ℚ) : biquad_coeffs_t :=
  ⟨quantizeQ24 f.1, quantizeQ24 f.2.1, quantizeQ24 f.2.2.1,
    quantizeQ24 f.2.2.2.1, quantizeQ24 f.2.2.2.2⟩

/-- The float literal `0.707f` (`Q_FACTOR` of equalizer.cpp and `SUBSONIC_Q`
of subsonic.h). -/
def Q_FACTOR : ℚ := fl32 (Rat.divInt 707 1000)

/-- The five fixed band center frequencies of equalizer.h. -/
def EQ_FREQS : List ℚ := [60, 250, 1000, 4000, 12000]

/-- `equalizer_set_band_gain` (equalizer.cpp lines 68-88).  The
floating-point body of `calculate_peaking_filter` (its `sinf`/`cosf` calls
have no closed rational value) is a parameter `fpeaking` with the same
argument list `(freq, gain_db, sample_rate, Q)`; its five float results are
quantized by `coeffs_of_floats` as in equalizer.cpp lines 40-44. -/
def equalizer_set_band_gain (fpeaking : ℚ → ℚ → ℚ → ℚ → ℚ × ℚ × ℚ × ℚ × ℚ)
    (eq : equalizer_t) (band : ℤ) (g : ℚ) (sample_rate : ℚ) :
    Bool × equalizer_t :=
  if band < 0 ∨ band ≥ 5 then (false, eq)
  else
    let g' := if g < -12 then (-12 : ℚ) else if g > 12 then 12 else g
    (true, { eq with
      gain_db := eq.gain_db.set band.toNat g',
      coeffs := eq.coeffs.set band.toNat
        (coeffs_of_floats
          (fpeaking (EQ_FREQS.getD band.toNat 0) g' sample_rate Q_FACTOR)) })

/-- `subsonic_t` of subsonic.h. -/
structure subsonic_t where
  coeffs : biquad_coeffs_t
  state_left : biquad_state_t
  state_right : biquad_state_t
  cutoff_freq : ℚ
  enabled : Bool
deriving DecidableEq

/-- `subsonic_process` (subsonic.cpp lines 88-140): bypass when disabled,
otherwise one high-pass biquad over the interleaved buffer, left and right
states separate. -/
def subsonic_process (s : subsonic_t) (buf : List (ℤ × ℤ)) :
    List (ℤ × ℤ) × subsonic_t :=
  if !s.enabled then (buf, s)
  else
    let r := procMap (biquad_pair_step s.coeffs) (s.state_left, s.state_right) buf
    (r.1, { s with state_left := r.2.1, state_right := r.2.2 })

/-- `subsonic_reset` (subsonic.cpp lines 158-163): zero both channel
histories, keep everything else. -/
def subsonic_reset (s : subsonic_t) : subsonic_t :=
  { s with state_left := ⟨0, 0, 0, 0⟩, state_right := ⟨0, 0, 0, 0⟩ }

/-- `subsonic_set_frequency` (subsonic.cpp lines 68-86): reject outside
[15, 50] Hz with no state change, else store the cutoff, derive fresh Q24
coefficients at the given sample rate (float body `fhighpass` is a
parameter, quantized as in subsonic.cpp lines 37-41) and reset the filter
state. -/
def subsonic_set_frequency (fhighpass : ℚ → ℚ → ℚ → ℚ × ℚ × ℚ × ℚ × ℚ)
    (s : subsonic_t) (freq : ℚ) (sample_rate : ℚ) : Bool × subsonic_t :=
  if freq < 15 ∨ freq > 50 then (false, s)
  else
    (true, subsonic_reset { s with
      cutoff_freq := freq,
      coeffs := coeffs_of_floats (fhighpass freq sample_rate Q_FACTOR) })

/-- `pregain_t` of pregain.h. -/
structure pregain_t where
  gain_db : ℚ
  gain_linear : ℚ
  enabled : Bool
deriving DecidableEq

/-- One sample of `pregain_process` (pregain.cpp lines 56-63):
`(int64_t)(buffer[i] * gain_linear)` converts the `int32_t` sample to
float, multiplies in float, truncates toward zero into an `int64_t`, and
the result is clamped to the `int32_t` range before the narrowing store. -/
def pregain_sample (g : ℚ) (x : ℤ) : ℤ :=
  clampI32 (truncQ (fl32 (qmul (fl32 (Rat.divInt x 1)) g)))

/-- `pregain_process` (pregain.cpp lines 44-65): bypass when disabled, skip
when the gain is exactly `0.0f` dB, else apply `pregain_sample` to every
sample of the buffer (this stage has no state, so only the buffer is
returned). -/
def pregain_process (pg : pregain_t) (buf : List ℤ) : List ℤ :=
  if !pg.enabled then buf
  else if pg.gain_db = 0 then buf
  else buf.map (pregain_sample pg.gain_linear)

/-- `pregain_set_gain` (pregain.cpp lines 25-37): clamp into
[`PREGAIN_MIN_DB`, `PREGAIN_MAX_DB`] = [-12, 12], store, convert to linear
(`powf(10, g/20)` is the parameter `fdb2lin`), always return true. -/
def pregain_set_gain (fdb2lin : ℚ → ℚ) (pg : pregain_t) (g : ℚ) :
    Bool × pregain_t :=
  let g' := if g < -12 then (-12 : ℚ) else if g > 12 then 12 else g
  (true, { pg with gain_db := g', gain_linear := fdb2lin g' })

/-- Fixed-point persistence encoding shared by the equalizer band gains
(equalizer.cpp line 196), the pre-gain (pregain.cpp line 98) and the
limiter threshold (limiter.cpp line 272):
`(int32_t)(value * 100.0f)`. -/
def nvs_encode_gain (g : ℚ) : ℤ := truncQ (fl32 (qmul g (Rat.divInt 100 1)))

/-- Decoding on load (equalizer.cpp line 251, pregain.cpp line 147,
limiter.cpp line 314): `(float)stored / 100.0f`. -/
def nvs_decode_gain (k : ℤ) : ℚ :=
  fl32 (qdiv (fl32 (Rat.divInt k 1)) (Rat.divInt 100 1))

/-- Persistence of the enabled flag: stored as `u8` `enabled ? 1 : 0`. -/
def nvs_encode_enabled (b : Bool) : ℤ := if b then 1 else 0

/-- Load of the enabled flag: `(enabled_u8 != 0)`. -/
def nvs_decode_enabled (v : ℤ) : Bool := decide (v ≠ 0)

/-- The float literal `1e-8f` (`MIN_ENVELOPE` of limiter.cpp line 92). -/
def MIN_ENVELOPE : ℚ := fl32 (Rat.divInt 1 100000000)

/-- The float literal `0.999f` (trigger level, limiter.cpp line 159). -/
def TRIGGER_LEVEL : ℚ := fl32 (Rat.divInt 999 1000)

/-- The float literal `1e-6f` (stats-throttle epsilon, limiter.cpp
line 142). -/
def STATS_EPS : ℚ := fl32 (Rat.divInt 1 1000000)

/-- `limiter_t` of limiter.h.  The `int` fields `lookahead_samples` and
`write_index` are `ℕ` (they are non-negative in every state the program
creates); `stats_update_counter` (`uint16_t`) is `ℕ`, faithful as long as
the counter is below 65535, which holds in every reachable state because it
is reset whenever it reaches 16.  The trigger callback pointer performs no
state change on the limiter and is not part of the model; `is_triggered`
is. -/
structure limiter_t where
  threshold : ℚ
  threshold_db : ℚ
  attack_coeff : ℚ
  release_coeff : ℚ
  lookahead_samples : ℕ
  envelope : ℚ
  lookahead_buffer : List ℤ
  write_index : ℕ
  peak_reduction_db : ℚ
  clip_prevented_count : ℕ
  stats_update_counter : ℕ
  min_envelope : ℚ
  enabled : Bool
  is_triggered : Bool
deriving DecidableEq

/-- Steps (d)-(e) of one limiter frame (limiter.cpp lines 113-122): the
desired instantaneous gain from the current input peak, floored at
`MIN_ENVELOPE` inside the over-threshold branch. -/
def limiter_desired_gain (TL peak : ℚ) : ℚ :=
  if peak > TL ∧ peak > 0 then
    let d0 := fl32 (qdiv TL peak)
    if d0 < MIN_ENVELOPE then MIN_ENVELOPE else d0
  else 1

/-- Step (f) of one limiter frame plus the floor guard (limiter.cpp lines
124-139): one-pole smoothing with the attack coefficient when the desired
gain is below the envelope, the release coefficient otherwise, then the
sub-floor clamp (the `isfinite` check cannot fire in exact rational
arithmetic, so the guard reduces to the clamp). -/
def limiter_env_update (a r e d : ℚ) : ℚ :=
  let env1 :=
    if d < e then
      fl32 (qadd (fl32 (qmul a e)) (fl32 (qmul (fl32 (qsub 1 a)) d)))
    else
      fl32 (qadd (fl32 (qmul r e)) (fl32 (qmul (fl32 (qsub 1 r)) d)))
  if env1 < MIN_ENVELOPE then MIN_ENVELOPE else env1

/-- Q16 quantisation of the envelope (limiter.cpp line 172):
`(int32_t)(envelope * 65536.0f + 0.5f)`. -/
def limiter_gain_q16 (e : ℚ) : ℤ :=
  truncQ (fl32 (qadd (fl32 (qmul e (Rat.divInt 65536 1))) (Rat.divInt 1 2)))

/-- Step (g) of one limiter frame (limiter.cpp lines 173-183): scale the
delayed sample by the Q16 gain and clamp into the `int32_t` range. -/
def limiter_apply_gain (v gq : ℤ) : ℤ := clampI32 (asr (v * gq) 16)

/-- One stereo frame of `limiter_process` (limiter.cpp lines 98-184).
`lin2db` stands for the float computation `20 * log10f` (no closed rational
value); it only feeds the monitoring field `peak_reduction_db`. -/
def limiter_step (lin2db : ℚ → ℚ) (lim : limiter_t) (p : ℤ × ℤ) :
    (ℤ × ℤ) × limiter_t :=
  let delayed_l := lim.lookahead_buffer.getD lim.write_index 0
  let delayed_r := lim.lookahead_buffer.getD (lim.write_index + 1) 0
  let buf1 := (lim.lookahead_buffer.set lim.write_index p.1).set
    (lim.write_index + 1) p.2
  let wi1 := lim.write_index + 2
  let wi2 := if wi1 ≥ lim.lookahead_samples then 0 else wi1
  let TL := fl32 (qmul lim.threshold (Rat.divInt 8388608 1))
  let peak : ℚ := fl32 (Rat.divInt ((max p.1.natAbs p.2.natAbs : ℕ) : ℤ) 1)
  let desired := limiter_desired_gain TL peak
  let clip1 :=
    if peak > TL ∧ peak > 0 then lim.clip_prevented_count + 1
    else lim.clip_prevented_count
  let prev := lim.envelope
  let env2 := limiter_env_update lim.attack_coeff lim.release_coeff
    lim.envelope desired
  let stats :=
    if |fl32 (qsub prev env2)| > STATS_EPS then
      if lim.stats_update_counter + 1 ≥ 16 then
        if env2 < lim.min_envelope then
          let red := lin2db env2
          ((0 : ℕ), env2,
            if red < lim.peak_reduction_db then red else lim.peak_reduction_db)
        else ((0 : ℕ), lim.min_envelope, lim.peak_reduction_db)
      else (lim.stats_update_counter + 1, lim.min_envelope, lim.peak_reduction_db)
    else (lim.stats_update_counter, lim.min_envelope, lim.peak_reduction_db)
  let now_triggered := env2 < TRIGGER_LEVEL
  let trig :=
    if !lim.is_triggered ∧ now_triggered then true
    else if lim.is_triggered ∧ ¬now_triggered then false
    else lim.is_triggered
  let gq := limiter_gain_q16 env2
  let out_l := limiter_apply_gain delayed_l gq
  let out_r := limiter_apply_gain delayed_r gq
  ((out_l, out_r),
    { lim with
      lookahead_buffer := buf1
      write_index := wi2
      envelope := env2
      clip_prevented_count := clip1
      stats_update_counter := stats.1
      min_envelope := stats.2.1
      peak_reduction_db := stats.2.2
      is_triggered := trig })

/-- `limiter_process` (limiter.cpp lines 79-185): bypass when disabled
(nothing advances, not even the look-ahead buffer), else `limiter_step`
over every interleaved frame. -/
def limiter_process (lin2db : ℚ → ℚ) (lim : limiter_t) (buf : List (ℤ × ℤ)) :
    List (ℤ × ℤ) × limiter_t :=
  if !lim.enabled then (buf, lim)
  else procMap (limiter_step lin2db) lim buf

/-- `limiter_init` (limiter.cpp lines 33-77).  `fexp` stands for `expf` and
`fdb2lin` for `db_to_linear` (`powf(10, db/20)`); every other float step of
the initialisation is modelled exactly. -/
def limiter_init (fexp fdb2lin : ℚ → ℚ) (sample_rate : ℕ) : limiter_t :=
  let fsf := fl32 (Rat.divInt (sample_rate : ℤ) 1)
  let look := truncQ (fl32 (qdiv
    (fl32 (qmul (fl32 (qmul (Rat.divInt 5 1) fsf)) (Rat.divInt 2 1)))
    (Rat.divInt 1000 1)))
  let attack_time := fl32 (qdiv (Rat.divInt 1 2) (Rat.divInt 1000 1))
  let release_time := fl32 (qdiv (Rat.divInt 50 1) (Rat.divInt 1000 1))
  { threshold := fdb2lin (Rat.divInt (-1) 2)
    threshold_db := Rat.divInt (-1) 2
    attack_coeff := fexp (fl32 (qdiv (qneg 1) (fl32 (qmul attack_time fsf))))
    release_coeff := fexp (fl32 (qdiv (qneg 1) (fl32 (qmul release_time fsf))))
    lookahead_samples := if look > 512 then 512 else look.toNat
    envelope := 1
    lookahead_buffer := List.replicate 512 0
    write_index := 0
    peak_reduction_db := 0
    clip_prevented_count := 0
    stats_update_counter := 0
    min_envelope := 1
    enabled := true
    is_triggered := false }

/-- `limiter_set_threshold` (limiter.cpp lines 204-215): clamp into
[-12, 0] dB, store both the dB and the linear value, always return true. -/
def limiter_set_threshold (fdb2lin : ℚ → ℚ) (lim : limiter_t) (t : ℚ) :
    Bool × limiter_t :=
  let t' := if t < -12 then (-12 : ℚ) else if t > 0 then 0 else t
  (true, { lim with threshold_db := t', threshold := fdb2lin t' })

/-- `limiter_reset` (limiter.cpp lines 222-232). -/
def limiter_reset (lim : limiter_t) : limiter_t :=
  { lim with
    lookahead_buffer := List.replicate 512 0
    write_index := 0
    envelope := 1
    stats_update_counter := 0
    min_envelope := 1 }

/-- The sequence of write-cursor values at which each frame of a block
accesses `lookahead_buffer[write_index]` and `[write_index + 1]`. -/
def limiter_wi_trace (lin2db : ℚ → ℚ) (lim : limiter_t) :
    List (ℤ × ℤ) → List ℕ
  | [] => []
  | p :: rest =>
    lim.write_index :: limiter_wi_trace lin2db ((limiter_step lin2db lim p).2) rest

/-- The per-sample biquad evaluation as claim C1 words it: the five 64-bit
products are summed first and ONE arithmetic right shift by 24 is applied
to the accumulated sum, followed by the same narrowing and state shift. -/
def biquad_step_claimed (c : biquad_coeffs_t) (s : biquad_state_t) (input : ℤ) :
    ℤ × biquad_state_t :=
  let temp := asr (c.b0 * input + c.b1 * s.x1 + c.b2 * s.x2
    - c.a1 * s.y1 - c.a2 * s.y2) 24
  let output := toInt32 temp
  (output, ⟨input, s.x1, output, s.y1⟩)

/-- Claim C1 is false on the code: the sources shift every 64-bit product
right by 24 individually before summing, which differs from the claimed
single-shift-of-the-sum whenever the fractional parts interact.  With
`b0 = 17000000` (≈1.013 in Q24), `b1 = -33000000` (≈-1.967), history
`x1 = 10` and input `60`, the code computes `60 + (-20) = 40` while the
single-accumulator formula gives `⌊(1020000000 - 330000000) / 2^24⌋ = 41`. -/
theorem C1_counterexample :
    biquad_step ⟨17000000, -33000000, 16000000, -33000000, 16000000⟩
      ⟨10, 0, 0, 0⟩ 60 ≠
    biquad_step_claimed ⟨17000000, -33000000, 16000000, -33000000, 16000000⟩
      ⟨10, 0, 0, 0⟩ 60 := by
  decide

theorem procMap_pair_split (c : biquad_coeffs_t) :
    ∀ (buf : List (ℤ × ℤ)) (sl sr : biquad_state_t),
    procMap (biquad_pair_step c) (sl, sr) buf =
      ((procMap (biquad_step c) sl (buf.map Prod.fst)).1.zip
        (procMap (biquad_step c) sr (buf.map Prod.snd)).1,
       ((procMap (biquad_step c) sl (buf.map Prod.fst)).2,
        (procMap (biquad_step c) sr (buf.map Prod.snd)).2)) := by
  intro buf
  induction buf with
  | nil =>
    intro sl sr
    rfl
  | cons p rest ih =>
    intro sl sr
    simp only [procMap, biquad_pair_step, List.map_cons, List.zip_cons_cons]
    rw [ih]

/-- Claim C1, amended: each output sample of `subsonic_process` and of each
equalizer band pass is computed by `biquad_step` — every 64-bit product
arithmetically shifted right by 24 individually, the five shifted terms
summed, the sum narrowed to `int32_t`, then the state shift
`x2 ← x1, x1 ← x, y2 ← y1, y1 ← y` — independently per stereo channel with
separate state: the interleaved loop equals the per-channel `biquad_step`
recursion on the deinterleaved channels. -/
theorem C1_per_term_amended :
    (∀ (s : subsonic_t) (buf : List (ℤ × ℤ)), s.enabled = true →
      subsonic_process s buf =
        ((procMap (biquad_step s.coeffs) s.state_left (buf.map Prod.fst)).1.zip
          (procMap (biquad_step s.coeffs) s.state_right (buf.map Prod.snd)).1,
         { s with
           state_left :=
             (procMap (biquad_step s.coeffs) s.state_left (buf.map Prod.fst)).2
           state_right :=
             (procMap (biquad_step s.coeffs) s.state_right (buf.map Prod.snd)).2 })) ∧
    (∀ (c : biquad_coeffs_t) (sl sr : biquad_state_t) (buf : List (ℤ × ℤ)),
      band_pass c sl sr buf =
        ((procMap (biquad_step c) sl (buf.map Prod.fst)).1.zip
          (procMap (biquad_step c) sr (buf.map Prod.snd)).1,
         ((procMap (biquad_step c) sl (buf.map Prod.fst)).2,
          (procMap (biquad_step c) sr (buf.map Prod.snd)).2))) := by
  constructor
  · intro s buf hen
    rw [subsonic_process, hen]
    simp only [Bool.not_true, Bool.false_eq_true, if_false]
    rw [procMap_pair_split]
  · intro c sl sr buf
    rw [band_pass, procMap_pair_split]

/-- Witness for C1's amended theorem at a concrete filter state and
buffer. -/
theorem C1_per_term_amended_witness :
    subsonic_process
      ⟨⟨16777216, -33000000, 16000000, -33000000, 16000000⟩,
        ⟨10, 3, 7, 2⟩, ⟨0, 0, 0, 0⟩, 25, true⟩ [(100, -7), (60, 4)] =
      ((procMap
          (biquad_step ⟨16777216, -33000000, 16000000, -33000000, 16000000⟩)
          ⟨10, 3, 7, 2⟩ [100, 60]).1.zip
        (procMap
          (biquad_step ⟨16777216, -33000000, 16000000, -33000000, 16000000⟩)
          ⟨0, 0, 0, 0⟩ [-7, 4]).1,
       { coeffs := ⟨16777216, -33000000, 16000000, -33000000, 16000000⟩,
         state_left :=
           (procMap
             (biquad_step ⟨16777216, -33000000, 16000000, -33000000, 16000000⟩)
             ⟨10, 3, 7, 2⟩ [100, 60]).2,
         state_right :=
           (procMap
             (biquad_step ⟨16777216, -33000000, 16000000, -33000000, 16000000⟩)
             ⟨0, 0, 0, 0⟩ [-7, 4]).2,
         cutoff_freq := 25, enabled := true }) :=
  C1_per_term_amended.1
    ⟨⟨16777216, -33000000, 16000000, -33000000, 16000000⟩,
      ⟨10, 3, 7, 2⟩, ⟨0, 0, 0, 0⟩, 25, true⟩ [(100, -7), (60, 4)] rfl

/-- Claim C5: every stage whose enabled flag is false passes the buffer
through bit-identically and leaves its whole state unchanged (each process
function returns before touching anything). -/
theorem C5_disabled_passthrough :
    (∀ (s : subsonic_t) (buf : List (ℤ × ℤ)), s.enabled = false →
      subsonic_process s buf = (buf, s)) ∧
    (∀ (pg : pregain_t) (buf : List ℤ), pg.enabled = false →
      pregain_process pg buf = buf) ∧
    (∀ (eq : equalizer_t) (buf : List (ℤ × ℤ)), eq.enabled = false →
      equalizer_process eq buf = (buf, eq)) ∧
    (∀ (lin2db : ℚ → ℚ) (lim : limiter_t) (buf : List (ℤ × ℤ)),
      lim.enabled = false → limiter_process lin2db lim buf = (buf, lim)) := by
  refine ⟨?_, ?_, ?_, ?_⟩
  · intro s buf h
    rw [subsonic_process, h]
    rfl
  · intro pg buf h
    rw [pregain_process, h]
    rfl
  · intro eq buf h
    rw [equalizer_process, h]
    rfl
  · intro lin2db lim buf h
    rw [limiter_process, h]
    rfl

/-- Witness for C5 at concrete disabled stage states. -/
theorem C5_disabled_passthrough_witness :
    subsonic_process
      ⟨⟨1, 2, 3, 4, 5⟩, ⟨6, 7, 8, 9⟩, ⟨1, 0, 0, 0⟩, 25, false⟩ [(10, 20)] =
      ([(10, 20)], ⟨⟨1, 2, 3, 4, 5⟩, ⟨6, 7, 8, 9⟩, ⟨1, 0, 0, 0⟩, 25, false⟩) ∧
    pregain_process ⟨6, 2, false⟩ [5, -9] = [5, -9] ∧
    equalizer_process
      ⟨[], [], [], [3, 0, 0, 0, 0], 0, false⟩ [(1, 2)] =
      ([(1, 2)], ⟨[], [], [], [3, 0, 0, 0, 0], 0, false⟩) ∧
    limiter_process (fun q => q)
      ⟨1, 0, 1, 1, 80, 1, [], 0, 0, 0, 0, 1, false, false⟩ [(7, 8)] =
      ([(7, 8)], ⟨1, 0, 1, 1, 80, 1, [], 0, 0, 0, 0, 1, false, false⟩) :=
  ⟨C5_disabled_passthrough.1 _ _ rfl,
   C5_disabled_passthrough.2.1 _ _ rfl,
   C5_disabled_passthrough.2.2.1 _ _ rfl,
   C5_disabled_passthrough.2.2.2 _ _ _ rfl⟩

theorem clamp_eq_max_min (lo hi g : ℚ) (h : lo ≤ hi) :
    (if g < lo then lo else if g > hi then hi else g) = max lo (min hi g) := by
  split_ifs with h1 h2
  · rw [min_eq_right (le_of_lt (lt_of_lt_of_le h1 h)), max_eq_left (le_of_lt h1)]
  · rw [min_eq_left (le_of_lt h2), max_eq_right h]
  · rw [min_eq_right (not_lt.mp h2), max_eq_right (not_lt.mp h1)]

/-- Claim C4: `pregain_set_gain` and `limiter_set_threshold` never fail —
they clamp the dB value (into [-12, 12] resp. [-12, 0]) and return true;
`equalizer_set_band_gain` clamps the gain the same way for a valid band
index 0-4 and returns true, but rejects an out-of-range band index with no
state change; `subsonic_set_frequency` rejects any frequency outside
[15, 50] Hz with no state change and reports success inside the range. -/
theorem C4_setter_policies :
    (∀ (fdb2lin : ℚ → ℚ) (pg : pregain_t) (g : ℚ),
      (pregain_set_gain fdb2lin pg g).1 = true ∧
      (pregain_set_gain fdb2lin pg g).2.gain_db = max (-12) (min 12 g)) ∧
    (∀ (fp : ℚ → ℚ → ℚ → ℚ → ℚ × ℚ × ℚ × ℚ × ℚ) (eq : equalizer_t)
      (band : ℤ) (g fs : ℚ),
      (0 ≤ band → band < 5 →
        (equalizer_set_band_gain fp eq band g fs).1 = true ∧
        (equalizer_set_band_gain fp eq band g fs).2.gain_db =
          eq.gain_db.set band.toNat (max (-12) (min 12 g))) ∧
      (band < 0 ∨ 5 ≤ band →
        equalizer_set_band_gain fp eq band g fs = (false, eq))) ∧
    (∀ (fdb2lin : ℚ → ℚ) (lim : limiter_t) (t : ℚ),
      (limiter_set_threshold fdb2lin lim t).1 = true ∧
      (limiter_set_threshold fdb2lin lim t).2.threshold_db = max (-12) (min 0 t)) ∧
    (∀ (fh : ℚ → ℚ → ℚ → ℚ × ℚ × ℚ × ℚ × ℚ) (s : subsonic_t) (f fs : ℚ),
      (f < 15 ∨ f > 50 → subsonic_set_frequency fh s f fs = (false, s)) ∧
      (15 ≤ f → f ≤ 50 → (subsonic_set_frequency fh s f fs).1 = true)) := by
  refine ⟨?_, ?_, ?_, ?_⟩
  · intro fdb2lin pg g
    exact ⟨rfl, clamp_eq_max_min (-12) 12 g (by norm_num)⟩
  · intro fp eq band g fs
    constructor
    · intro h0 h5
      have hcond : ¬(band < 0 ∨ band ≥ 5) := by
        push_neg
        exact ⟨h0, h5⟩
      rw [equalizer_set_band_gain, if_neg hcond]
      exact ⟨rfl, by rw [clamp_eq_max_min (-12) 12 g (by norm_num)]⟩
    · intro h
      have hcond : band < 0 ∨ band ≥ 5 := by
        rcases h with h | h
        · exact Or.inl h
        · exact Or.inr h
      rw [equalizer_set_band_gain, if_pos hcond]
  · intro fdb2lin lim t
    exact ⟨rfl, clamp_eq_max_min (-12) 0 t (by norm_num)⟩
  · intro fh s f fs
    constructor
    · intro h
      rw [subsonic_set_frequency, if_pos h]
    · intro h1 h2
      have hcond : ¬(f < 15 ∨ f > 50) := by
        push_neg
        exact ⟨h1, h2⟩
      rw [subsonic_set_frequency, if_neg hcond]

/-- Witness for C4 at concrete setter calls: out-of-range pre-gain (20 dB),
valid band with out-of-range gain (13 dB), invalid band index 7,
out-of-range threshold (-20 dB), rejected subsonic frequency (10 Hz) and
accepted subsonic frequency (25 Hz). -/
theorem C4_setter_policies_witness :
    ((pregain_set_gain (fun q => q) ⟨0, 1, true⟩ 20).1 = true ∧
      (pregain_set_gain (fun q => q) ⟨0, 1, true⟩ 20).2.gain_db =
        max (-12) (min 12 20)) ∧
    ((equalizer_set_band_gain (fun _ _ _ _ => (1, 1, 1, 1, 1))
        ⟨[], [], [], [0, 0, 0, 0, 0], 0, true⟩ 2 13 48000).1 = true) ∧
    (equalizer_set_band_gain (fun _ _ _ _ => (1, 1, 1, 1, 1))
        ⟨[], [], [], [0, 0, 0, 0, 0], 0, true⟩ 7 3 48000 =
      (false, ⟨[], [], [], [0, 0, 0, 0, 0], 0, true⟩)) ∧
    ((limiter_set_threshold (fun q => q)
        ⟨1, 0, 1, 1, 80, 1, [], 0, 0, 0, 0, 1, true, false⟩ (-20)).2.threshold_db =
      max (-12) (min 0 (-20))) ∧
    (subsonic_set_frequency (fun _ _ _ => (1, 1, 1, 1, 1))
        ⟨⟨1, 2, 3, 4, 5⟩, ⟨1, 1, 1, 1⟩, ⟨2, 2, 2, 2⟩, 25, true⟩ 10 48000 =
      (false, ⟨⟨1, 2, 3, 4, 5⟩, ⟨1, 1, 1, 1⟩, ⟨2, 2, 2, 2⟩, 25, true⟩)) ∧
    ((subsonic_set_frequency (fun _ _ _ => (1, 1, 1, 1, 1))
        ⟨⟨1, 2, 3, 4, 5⟩, ⟨1, 1, 1, 1⟩, ⟨2, 2, 2, 2⟩, 25, true⟩ 30 48000).1 = true) :=
  ⟨C4_setter_policies.1 (fun q => q) ⟨0, 1, true⟩ 20,
   ((C4_setter_policies.2.1 (fun _ _ _ _ => (1, 1, 1, 1, 1))
      ⟨[], [], [], [0, 0, 0, 0, 0], 0, true⟩ 2 13 48000).1
      (by norm_num) (by norm_num)).1,
   (C4_setter_policies.2.1 (fun _ _ _ _ => (1, 1, 1, 1, 1))
      ⟨[], [], [], [0, 0, 0, 0, 0], 0, true⟩ 7 3 48000).2
      (Or.inr (by norm_num)),
   (C4_setter_policies.2.2.1 (fun q => q)
      ⟨1, 0, 1, 1, 80, 1, [], 0, 0, 0, 0, 1, true, false⟩ (-20)).2,
   (C4_setter_policies.2.2.2 (fun _ _ _ => (1, 1, 1, 1, 1))
      ⟨⟨1, 2, 3, 4, 5⟩, ⟨1, 1, 1, 1⟩, ⟨2, 2, 2, 2⟩, 25, true⟩ 10 48000).1
      (Or.inl (by norm_num)),
   (C4_setter_policies.2.2.2 (fun _ _ _ => (1, 1, 1, 1, 1))
      ⟨⟨1, 2, 3, 4, 5⟩, ⟨1, 1, 1, 1⟩, ⟨2, 2, 2, 2⟩, 25, true⟩ 30 48000).2
      (by norm_num) (by norm_num)⟩

/-- Claim C8: an in-range frequency (15-50 Hz) is accepted — the new cutoff
is stored, the Q24 high-pass coefficients are rederived at the given sample
rate and both channel histories are zeroed; an out-of-range frequency is
rejected with `false` and the whole state (cutoff, coefficients, history)
is left untouched. -/
theorem C8_set_frequency (fh : ℚ → ℚ → ℚ → ℚ × ℚ × ℚ × ℚ × ℚ)
    (s : subsonic_t) (freq fs : ℚ) :
    (15 ≤ freq → freq ≤ 50 →
      subsonic_set_frequency fh s freq fs =
        (true, { s with
          cutoff_freq := freq
          coeffs := coeffs_of_floats (fh freq fs Q_FACTOR)
          state_left := ⟨0, 0, 0, 0⟩
          state_right := ⟨0, 0, 0, 0⟩ })) ∧
    (freq < 15 ∨ freq > 50 →
      subsonic_set_frequency fh s freq fs = (false, s)) := by
  constructor
  · intro h1 h2
    have hcond : ¬(freq < 15 ∨ freq > 50) := by
      push_neg
      exact ⟨h1, h2⟩
    rw [subsonic_set_frequency, if_neg hcond]
    rfl
  · intro h
    rw [subsonic_set_frequency, if_pos h]

/-- Witness for C8: an accepted 30 Hz change (coefficients rederived, state
zeroed) and a rejected 10 Hz change (state returned untouched). -/
theorem C8_set_frequency_witness :
    subsonic_set_frequency (fun _ _ _ => (1, 2, 3, 4, 5))
      ⟨⟨9, 9, 9, 9, 9⟩, ⟨1, 2, 3, 4⟩, ⟨5, 6, 7, 8⟩, 25, true⟩ 30 48000 =
      (true,
        { coeffs := coeffs_of_floats ((fun _ _ _ => ((1:ℚ), (2:ℚ), (3:ℚ), (4:ℚ), (5:ℚ))) 30 48000 Q_FACTOR)
          state_left := ⟨0, 0, 0, 0⟩
          state_right := ⟨0, 0, 0, 0⟩
          cutoff_freq := 30
          enabled := true }) ∧
    subsonic_set_frequency (fun _ _ _ => (1, 2, 3, 4, 5))
      ⟨⟨9, 9, 9, 9, 9⟩, ⟨1, 2, 3, 4⟩, ⟨5, 6, 7, 8⟩, 25, true⟩ 10 48000 =
      (false, ⟨⟨9, 9, 9, 9, 9⟩, ⟨1, 2, 3, 4⟩, ⟨5, 6, 7, 8⟩, 25, true⟩) :=
  ⟨(C8_set_frequency (fun _ _ _ => (1, 2, 3, 4, 5))
      ⟨⟨9, 9, 9, 9, 9⟩, ⟨1, 2, 3, 4⟩, ⟨5, 6, 7, 8⟩, 25, true⟩ 30 48000).1
      (by norm_num) (by norm_num),
   (C8_set_frequency (fun _ _ _ => (1, 2, 3, 4, 5))
      ⟨⟨9, 9, 9, 9, 9⟩, ⟨1, 2, 3, 4⟩, ⟨5, 6, 7, 8⟩, 25, true⟩ 10 48000).2
      (Or.inl (by norm_num))⟩

/-- The `int32_t` range. -/
def inInt32 (x : ℤ) : Prop := -2 ^ 31 ≤ x ∧ x < 2 ^ 31

instance : DecidablePred inInt32 := fun x => by
  unfold inInt32
  infer_instance

/-- The shape `calculate_peaking_filter` produces at exactly 0 dB gain:
`A = 1` makes `b0_f = 1` (quantized to `2^24`), and makes the `b1`/`a1`
resp. `b2`/`a2` formulas syntactically identical floats, so their
quantizations coincide. -/
def zero_db_coeffs (c : biquad_coeffs_t) : Prop :=
  c.b0 = 16777216 ∧ c.b1 = c.a1 ∧ c.b2 = c.a2

instance : DecidablePred zero_db_coeffs := fun c => by
  unfold zero_db_coeffs
  infer_instance

/-- A biquad history whose input and output sides agree (for example the
all-zero history after a reset). -/
def equal_history (s : biquad_state_t) : Prop := s.x1 = s.y1 ∧ s.x2 = s.y2

instance : DecidablePred equal_history := fun s => by
  unfold equal_history
  infer_instance

theorem toInt32_eq_self {x : ℤ} (h1 : -2 ^ 31 ≤ x) (h2 : x < 2 ^ 31) :
    toInt32 x = x := by
  rw [toInt32]
  omega

theorem asr_q24_cancel (x : ℤ) : asr (16777216 * x) 24 = x := by
  rw [asr]
  have e1 : (2 : ℤ) ^ 24 = 16777216 := by norm_num
  rw [e1]
  exact Int.mul_fdiv_cancel_left x (by norm_num)

theorem biquad_step_identity (c : biquad_coeffs_t) (s : biquad_state_t) (x : ℤ)
    (hc : zero_db_coeffs c) (hs : equal_history s) (hx : inInt32 x) :
    biquad_step c s x = (x, ⟨x, s.x1, x, s.y1⟩) := by
  obtain ⟨hb0, hb1, hb2⟩ := hc
  obtain ⟨h1, h2⟩ := hs
  have hsum : asr (c.b0 * x) 24 + asr (c.b1 * s.x1) 24 + asr (c.b2 * s.x2) 24
      - asr (c.a1 * s.y1) 24 - asr (c.a2 * s.y2) 24 = x := by
    rw [hb0, hb1, hb2, h1, h2, asr_q24_cancel]
    ring
  simp only [biquad_step, hsum, toInt32_eq_self hx.1 hx.2]

theorem band_pass_identity (c : biquad_coeffs_t) (hc : zero_db_coeffs c) :
    ∀ (buf : List (ℤ × ℤ)) (sl sr : biquad_state_t),
    equal_history sl → equal_history sr →
    (∀ p ∈ buf, inInt32 p.1 ∧ inInt32 p.2) →
    (band_pass c sl sr buf).1 = buf ∧
    equal_history (band_pass c sl sr buf).2.1 ∧
    equal_history (band_pass c sl sr buf).2.2 := by
  intro buf
  induction buf with
  | nil =>
    intro sl sr hl hr _
    exact ⟨rfl, hl, hr⟩
  | cons p rest ih =>
    intro sl sr hl hr hb
    have hp := hb p (List.mem_cons_self p rest)
    have hrest : ∀ q ∈ rest, inInt32 q.1 ∧ inInt32 q.2 := fun q hq =>
      hb q (List.mem_cons_of_mem p hq)
    obtain ⟨hx, hs1, hs2⟩ := ih ⟨p.1, sl.x1, p.1, sl.y1⟩ ⟨p.2, sr.x1, p.2, sr.y1⟩
      ⟨rfl, hl.1⟩ ⟨rfl, hr.1⟩ hrest
    rw [band_pass] at hx hs1 hs2 ⊢
    simp only [procMap, biquad_pair_step,
      biquad_step_identity c sl p.1 hc hl hp.1,
      biquad_step_identity c sr p.2 hc hr hp.2]
    exact ⟨by rw [hx], hs1, hs2⟩

theorem equalizer_cascade_identity :
    ∀ (cs : List biquad_coeffs_t) (sls srs : List biquad_state_t)
      (buf : List (ℤ × ℤ)),
    (∀ c ∈ cs, zero_db_coeffs c) →
    (∀ s ∈ sls, equal_history s) →
    (∀ s ∈ srs, equal_history s) →
    (∀ p ∈ buf, inInt32 p.1 ∧ inInt32 p.2) →
    (equalizer_cascade cs sls srs buf).1 = buf := by
  intro cs
  induction cs with
  | nil =>
    intro sls srs buf _ _ _ _
    cases sls <;> cases srs <;> rfl
  | cons c cs' ih =>
    intro sls srs buf hc hl hr hb
    cases sls with
    | nil => rfl
    | cons sl sls' =>
      cases srs with
      | nil => rfl
      | cons sr srs' =>
        have hcc := hc c (List.mem_cons_self c cs')
        have hsl := hl sl (List.mem_cons_self sl sls')
        have hsr := hr sr (List.mem_cons_self sr srs')
        obtain ⟨hx, _, _⟩ := band_pass_identity c hcc buf sl sr hsl hsr hb
        rw [equalizer_cascade]
        simp only [hx]
        exact ih sls' srs' buf
          (fun d hd => hc d (List.mem_cons_of_mem c hd))
          (fun s hs => hl s (List.mem_cons_of_mem sl hs))
          (fun s hs => hr s (List.mem_cons_of_mem sr hs))
          hb

/-- A flat (all gains 0 dB) equalizer whose band-0 left history is stale
from an earlier non-zero setting: `x1 = 10` but `y1 = 0`. -/
def eqFlatStale : equalizer_t :=
  { coeffs := List.replicate 5 ⟨16777216, -33000000, 16000000, -33000000, 16000000⟩
    state_left := ⟨10, 0, 0, 0⟩ :: List.replicate 4 ⟨0, 0, 0, 0⟩
    state_right := List.replicate 5 ⟨0, 0, 0, 0⟩
    gain_db := List.replicate 5 0
    pre_gain_db := 0
    enabled := true }

/-- Claim C9 is false on the code: with every gain exactly 0 dB the fast
path returns the buffer bit-identically, but from the same state the full
five-band cascade does not reproduce it when a band history has unequal
input/output sides (reachable by processing with a non-zero gain and then
setting the band back to 0 dB): on `eqFlatStale` and the single frame
`(60, 0)`, the fast path yields 60 while the cascade yields
`60 + ⌊-33000000·10 / 2^24⌋ = 40`. -/
theorem C9_counterexample :
    (∀ c ∈ eqFlatStale.coeffs, zero_db_coeffs c) ∧
    (∀ g ∈ eqFlatStale.gain_db, g = 0) ∧
    eqFlatStale.enabled = true ∧
    (equalizer_process eqFlatStale [(60, 0)]).1 = [(60, 0)] ∧
    (equalizer_cascade eqFlatStale.coeffs eqFlatStale.state_left
      eqFlatStale.state_right [(60, 0)]).1 ≠ [(60, 0)] := by
  refine ⟨by decide, by decide, by decide, by decide, by decide⟩

/-- Claim C9, amended: with the equalizer enabled and every band gain
exactly 0 dB, `equalizer_process` leaves the buffer bit-identical, and this
equals the full five-band cascade output PROVIDED each band's history has
equal input and output sides (`x1 = y1`, `x2 = y2` — in particular the
all-zero history after `equalizer_reset`); the coefficient hypotheses are
the shape `calculate_peaking_filter` gives every 0 dB band. -/
theorem C9_flat_path_amended (eq : equalizer_t) (buf : List (ℤ × ℤ))
    (hen : eq.enabled = true)
    (_hg : ∀ g ∈ eq.gain_db, g = 0)
    (hc : ∀ c ∈ eq.coeffs, zero_db_coeffs c)
    (hl : ∀ s ∈ eq.state_left, equal_history s)
    (hr : ∀ s ∈ eq.state_right, equal_history s)
    (hb : ∀ p ∈ buf, inInt32 p.1 ∧ inInt32 p.2) :
    (equalizer_process eq buf).1 = buf ∧
    (equalizer_cascade eq.coeffs eq.state_left eq.state_right buf).1 = buf := by
  have hcasc := equalizer_cascade_identity eq.coeffs eq.state_left
    eq.state_right buf hc hl hr hb
  constructor
  · rw [equalizer_process, hen]
    simp only [Bool.not_true, Bool.false_eq_true, if_false]
    split
    · rfl
    · exact hcasc
  · exact hcasc

/-- Witness for C9's amended theorem: a freshly reset flat equalizer and a
two-frame buffer. -/
theorem C9_flat_path_amended_witness :
    (equalizer_process
      { coeffs :=
          List.replicate 5 ⟨16777216, -33000000, 16000000, -33000000, 16000000⟩
        state_left := List.replicate 5 ⟨0, 0, 0, 0⟩
        state_right := List.replicate 5 ⟨0, 0, 0, 0⟩
        gain_db := List.replicate 5 0
        pre_gain_db := 0
        enabled := true } [(60, -5), (1000, 7)]).1 = [(60, -5), (1000, 7)] ∧
    (equalizer_cascade
      (List.replicate 5 ⟨16777216, -33000000, 16000000, -33000000, 16000000⟩)
      (List.replicate 5 ⟨0, 0, 0, 0⟩) (List.replicate 5 ⟨0, 0, 0, 0⟩)
      [(60, -5), (1000, 7)]).1 = [(60, -5), (1000, 7)] :=
  C9_flat_path_amended
    { coeffs :=
        List.replicate 5 ⟨16777216, -33000000, 16000000, -33000000, 16000000⟩
      state_left := List.replicate 5 ⟨0, 0, 0, 0⟩
      state_right := List.replicate 5 ⟨0, 0, 0, 0⟩
      gain_db := List.replicate 5 0
      pre_gain_db := 0
      enabled := true } [(60, -5), (1000, 7)] rfl (by decide) (by decide)
    (by decide) (by decide) (by decide)

theorem clampI32_range (v : ℤ) :
    -2 ^ 31 ≤ clampI32 v ∧ clampI32 v ≤ 2 ^ 31 - 1 := by
  rw [clampI32]
  split_ifs <;> omega

/-- Claim C6: with pre-gain enabled at a non-zero dB setting, every output
sample is the input converted to float, multiplied by the linear gain,
truncated through a 64-bit intermediate and saturated to the signed 32-bit
range: the stored sample never wraps for any input and any gain. -/
theorem C6_pregain_saturation (pg : pregain_t) (buf : List ℤ)
    (hen : pg.enabled = true) (hg : pg.gain_db ≠ 0) :
    pregain_process pg buf = buf.map (pregain_sample pg.gain_linear) ∧
    ∀ y ∈ pregain_process pg buf, -2 ^ 31 ≤ y ∧ y ≤ 2 ^ 31 - 1 := by
  have hmap : pregain_process pg buf = buf.map (pregain_sample pg.gain_linear) := by
    rw [pregain_process, hen]
    simp only [Bool.not_true, Bool.false_eq_true, if_false, if_neg hg]
  refine ⟨hmap, ?_⟩
  rw [hmap]
  intro y hy
  obtain ⟨x, _, rfl⟩ := List.mem_map.mp hy
  exact clampI32_range _

/-- Witness for C6 at +6 dB (linear gain 2) on a full-scale-negative and a
moderate sample. -/
theorem C6_pregain_saturation_witness :
    pregain_process ⟨6, 2, true⟩ [1000, -2147483648] =
      [1000, -2147483648].map (pregain_sample 2) ∧
    ∀ y ∈ pregain_process ⟨6, 2, true⟩ [1000, -2147483648],
      -2 ^ 31 ≤ y ∧ y ≤ 2 ^ 31 - 1 :=
  C6_pregain_saturation ⟨6, 2, true⟩ [1000, -2147483648] rfl (by norm_num)

theorem limiter_env_update_ge_floor (a r e d : ℚ) :
    MIN_ENVELOPE ≤ limiter_env_update a r e d := by
  rw [limiter_env_update]
  split_ifs with h1 h2 h3
  · exact le_refl _
  · exact not_lt.mp h2
  · exact le_refl _
  · exact not_lt.mp h3

theorem limiter_step_env_floor (lin2db : ℚ → ℚ) (lim : limiter_t) (p : ℤ × ℤ) :
    MIN_ENVELOPE ≤ ((limiter_step lin2db lim p).2).envelope :=
  limiter_env_update_ge_floor _ _ _ _

theorem limiter_procMap_env_floor (lin2db : ℚ → ℚ) :
    ∀ (buf : List (ℤ × ℤ)) (lim : limiter_t), buf ≠ [] →
    MIN_ENVELOPE ≤ (procMap (limiter_step lin2db) lim buf).2.envelope := by
  intro buf
  induction buf with
  | nil =>
    intro lim h
    exact absurd rfl h
  | cons p rest ih =>
    intro lim _
    cases rest with
    | nil => exact limiter_step_env_floor lin2db lim p
    | cons q rest' =>
      exact ih ((limiter_step lin2db lim p).2) (List.cons_ne_nil q rest')

/-- Claim C7: after every per-sample envelope update the envelope is at
least the strictly positive floor `MIN_ENVELOPE` (the float value of the
source literal `1e-8f`, namely 11258999/2^50): a sub-floor smoothing result
is replaced by the floor before the envelope is used (in exact rational
arithmetic the `isfinite` guard of the source can never fire, so the clamp
is the whole check), for every limiter state and every input block. -/
theorem C7_envelope_floor :
    (0 : ℚ) < MIN_ENVELOPE ∧
    (∀ a r e d : ℚ, MIN_ENVELOPE ≤ limiter_env_update a r e d) ∧
    (∀ (lin2db : ℚ → ℚ) (lim : limiter_t) (p : ℤ × ℤ),
      MIN_ENVELOPE ≤ ((limiter_step lin2db lim p).2).envelope) ∧
    (∀ (lin2db : ℚ → ℚ) (lim : limiter_t) (buf : List (ℤ × ℤ)),
      lim.enabled = true → buf ≠ [] →
      MIN_ENVELOPE ≤ ((limiter_process lin2db lim buf).2).envelope) := by
  refine ⟨by decide, limiter_env_update_ge_floor, limiter_step_env_floor, ?_⟩
  intro lin2db lim buf hen hne
  rw [limiter_process, hen]
  simp only [Bool.not_true, Bool.false_eq_true, if_false]
  exact limiter_procMap_env_floor lin2db buf lim hne

/-- Witness for C7 on a concrete limiter state driven by a full-scale
frame. -/
theorem C7_envelope_floor_witness :
    MIN_ENVELOPE ≤
      ((limiter_process (fun q => q)
        ⟨Rat.divInt 1 4, -12, Rat.divInt 3 4, Rat.divInt 1 2, 80, 1,
          List.replicate 512 0, 0, 0, 0, 0, 1, true, false⟩
        [(8388608, -8388608)]).2).envelope :=
  C7_envelope_floor.2.2.2 (fun q => q)
    ⟨Rat.divInt 1 4, -12, Rat.divInt 3 4, Rat.divInt 1 2, 80, 1,
      List.replicate 512 0, 0, 0, 0, 0, 1, true, false⟩
    [(8388608, -8388608)] rfl (List.cons_ne_nil _ _)

theorem rhe_err (q : ℚ) : |(rhe q : ℚ) - q| ≤ 1 / 2 := by
  have hmid : (Rat.divInt (2 * ⌊q⌋ + 1) 2 : ℚ) = (⌊q⌋ : ℚ) + 1 / 2 := by
    rw [Rat.divInt_eq_div]
    push_cast
    ring
  have hfl : ((⌊q⌋ : ℤ) : ℚ) ≤ q := Int.floor_le q
  have hfu : q < (⌊q⌋ : ℚ) + 1 := Int.lt_floor_add_one q
  rw [rhe]
  split_ifs with h1 h2 h3
  · rw [hmid] at h1
    rw [abs_le]
    constructor <;> linarith
  · rw [hmid] at h1 h2
    rw [abs_le]
    push_cast
    constructor <;> linarith
  · rw [hmid] at h1 h2
    rw [abs_le]
    constructor <;> linarith
  · rw [hmid] at h1 h2
    rw [abs_le]
    push_cast
    constructor <;> linarith

theorem fl32pos_err (a : ℚ) :
    |fl32pos a - a| ≤ zpow2 (qexp a - 24) := by
  rw [fl32pos_eq]
  set e := qexp a with he
  set x := a * (2:ℚ) ^ ((23:ℤ) - e) with hxd
  have hx : x * (2:ℚ) ^ (e - 23) = a := by
    rw [hxd, mul_assoc, ← zpow_add₀ (by norm_num : (2:ℚ) ≠ 0)]
    norm_num
  have key : (rhe x : ℚ) * (2:ℚ) ^ (e - 23) - a =
      ((rhe x : ℚ) - x) * (2:ℚ) ^ (e - 23) := by
    rw [sub_mul, hx]
  rw [key, abs_mul, abs_of_pos (by positivity : (0:ℚ) < (2:ℚ) ^ (e - 23))]
  calc |(rhe x : ℚ) - x| * (2:ℚ) ^ (e - 23) ≤ 1 / 2 * (2:ℚ) ^ (e - 23) :=
      mul_le_mul_of_nonneg_right (rhe_err x) (by positivity)
    _ = zpow2 (e - 24) := by
      rw [zpow2_eq]
      have h2 : (1 / 2 : ℚ) = (2:ℚ) ^ (-1 : ℤ) := by norm_num
      rw [h2, ← zpow_add₀ (by norm_num : (2:ℚ) ≠ 0)]
      congr 1
      ring

theorem qexp_le_of_le {q : ℚ} (hq : 0 < q) {t : ℤ} (h : q ≤ zpow2 t) :
    qexp q ≤ t := by
  obtain ⟨h1, _⟩ := qexp_spec q hq
  by_contra hc
  push_neg at hc
  have h2 : zpow2 (t + 1) ≤ zpow2 (qexp q) := by
    rw [zpow2_eq, zpow2_eq]
    exact zpow_le_zpow_right₀ (by norm_num) (by omega)
  have h3 : zpow2 t < zpow2 (t + 1) := by
    rw [zpow2_eq, zpow2_eq]
    exact zpow_lt_zpow_right₀ (by norm_num) (by omega)
  linarith

theorem fl32_neg_eq (q : ℚ) : fl32 (-q) = -fl32 q := by
  rcases lt_trichotomy q 0 with h | h | h
  · rw [fl32_of_neg h, fl32_of_pos (by linarith : (0:ℚ) < -q), qneg_eq, qneg_eq, neg_neg]
  · rw [h, neg_zero, fl32_zero, neg_zero]
  · rw [fl32_of_pos h, fl32_of_neg (by linarith : -q < 0), qneg_eq, qneg_eq, neg_neg]

theorem fl32_intCast_small_pos (m : ℤ) (h0 : 0 < m) (h : m ≤ 2 ^ 23) :
    fl32 (m : ℚ) = m := by
  have hpos : (0:ℚ) < (m : ℚ) := by exact_mod_cast h0
  rw [fl32_of_pos hpos]
  have hle : ((m : ℤ) : ℚ) ≤ zpow2 23 := by
    rw [zpow2_eq]
    calc ((m : ℤ) : ℚ) ≤ ((2 ^ 23 : ℤ) : ℚ) := by exact_mod_cast h
      _ = (2:ℚ) ^ (23 : ℤ) := by push_cast; norm_num
  have he : qexp (m : ℚ) ≤ 23 := qexp_le_of_le hpos hle
  rw [fl32pos_eq]
  have hk : (m:ℚ) * (2:ℚ) ^ ((23:ℤ) - qexp (m:ℚ)) =
      ((m * 2 ^ ((23 - qexp (m:ℚ)).toNat) : ℤ) : ℚ) := by
    push_cast
    rw [← zpow_natCast (2:ℚ) ((23 - qexp (m:ℚ)).toNat),
      Int.toNat_of_nonneg (by omega)]
  rw [hk, rhe_intCast]
  push_cast
  rw [← zpow_natCast (2:ℚ) ((23 - qexp (m:ℚ)).toNat),
    Int.toNat_of_nonneg (by omega), mul_assoc,
    ← zpow_add₀ (by norm_num : (2:ℚ) ≠ 0)]
  norm_num

theorem fl32_intCast_small (m : ℤ) (h : m.natAbs ≤ 2 ^ 23) : fl32 (m : ℚ) = m := by
  rcases lt_trichotomy m 0 with hm | hm | hm
  · have hthis : fl32 ((-m : ℤ) : ℚ) = ((-m : ℤ) : ℚ) :=
      fl32_intCast_small_pos (-m) (by omega) (by omega)
    push_cast at hthis
    rw [fl32_neg_eq] at hthis
    have : fl32 (m : ℚ) = (m : ℚ) := by linarith
    exact this
  · rw [hm, Int.cast_zero, fl32_zero]
  · exact fl32_intCast_small_pos m hm (by omega)

theorem fl32_err_of_le {q : ℚ} (hq : 0 ≤ q) {t : ℤ} (h : q ≤ zpow2 t) :
    |fl32 q - q| ≤ zpow2 (t - 24) := by
  rcases eq_or_lt_of_le hq with h0 | h0
  · rw [← h0, fl32_zero, sub_zero, abs_zero]
    exact le_of_lt (zpow2_pos _)
  · rw [fl32_of_pos h0]
    calc |fl32pos q - q| ≤ zpow2 (qexp q - 24) := fl32pos_err q
      _ ≤ zpow2 (t - 24) := by
        rw [zpow2_eq, zpow2_eq]
        exact zpow_le_zpow_right₀ (by norm_num) (by have := qexp_le_of_le h0 h; omega)

theorem divInt_one_eq (k : ℤ) : Rat.divInt k 1 = (k : ℚ) :=
  (Rat.intCast_eq_divInt k).symm

theorem truncQ_intCast (m : ℤ) : truncQ (m : ℚ) = m := by
  rw [truncQ, Rat.num_intCast, Rat.den_intCast]
  exact Int.tdiv_one m

theorem truncQ_neg (q : ℚ) : truncQ (-q) = -truncQ q := by
  rw [truncQ, truncQ, Rat.neg_num, Rat.neg_den, Int.neg_tdiv]

theorem truncQ_nonneg_eq_floor {q : ℚ} (h : 0 ≤ q) : truncQ q = ⌊q⌋ := by
  rw [truncQ, Rat.floor_def]
  exact Int.tdiv_eq_ediv (Rat.num_nonneg.mpr h) (Int.natCast_nonneg q.den)

theorem nvs_decode_gain_neg (k : ℤ) : nvs_decode_gain (-k) = -nvs_decode_gain k := by
  rw [nvs_decode_gain, nvs_decode_gain,
    show Rat.divInt (-k) 1 = -Rat.divInt k 1 from (Rat.neg_divInt k 1).symm,
    fl32_neg_eq, qdiv_eq, qdiv_eq, neg_div, fl32_neg_eq]

theorem nvs_encode_gain_neg (g : ℚ) : nvs_encode_gain (-g) = -nvs_encode_gain g := by
  rw [nvs_encode_gain, nvs_encode_gain, qmul_eq, qmul_eq, neg_mul, fl32_neg_eq,
    truncQ_neg]

theorem nvs_decode_gain_eq (k : ℤ) (h : k.natAbs ≤ 2 ^ 23) :
    nvs_decode_gain k = fl32 ((k : ℚ) / 100) := by
  rw [nvs_decode_gain, qdiv_eq, divInt_one_eq, fl32_intCast_small k h,
    divInt_one_eq]
  norm_num

theorem nvs_encode_gain_eq (g : ℚ) : nvs_encode_gain g = truncQ (fl32 (g * 100)) := by
  rw [nvs_encode_gain, qmul_eq, divInt_one_eq]
  norm_num

theorem nvs_roundtrip_close_nonneg (k : ℤ) (h0 : 0 ≤ k) (h2 : k ≤ 1200) :
    k - 1 ≤ nvs_encode_gain (nvs_decode_gain k) ∧
    nvs_encode_gain (nvs_decode_gain k) ≤ k := by
  have hz1 : zpow2 (4 - 24) = 1 / 1048576 := by
    norm_num [zpow2_eq]
  have hz2 : zpow2 (11 - 24) = 1 / 8192 := by
    norm_num [zpow2_eq]
  have hkQ0 : (0:ℚ) ≤ (k:ℚ) := by exact_mod_cast h0
  have hkQ2 : (k:ℚ) ≤ 1200 := by exact_mod_cast h2
  have hdec : nvs_decode_gain k = fl32 ((k:ℚ) / 100) := nvs_decode_gain_eq k (by omega)
  set v := fl32 ((k:ℚ) / 100) with hv
  have hq0 : (0:ℚ) ≤ (k:ℚ) / 100 := by positivity
  have hqle : (k:ℚ) / 100 ≤ zpow2 4 := by
    rw [zpow2_eq]
    rw [div_le_iff₀ (by norm_num : (0:ℚ) < 100)]
    norm_num
    linarith
  have herr1 : |v - (k:ℚ) / 100| ≤ 1 / 1048576 := by
    rw [← hz1]
    exact fl32_err_of_le hq0 hqle
  have hv0 : 0 ≤ v := fl32_nonneg hq0
  have habs1 := abs_le.mp herr1
  have hprod : |v * 100 - (k:ℚ)| ≤ 100 / 1048576 := by
    have hrw : v * 100 - (k:ℚ) = (v - (k:ℚ) / 100) * 100 := by ring
    rw [hrw, abs_mul, abs_of_pos (by norm_num : (0:ℚ) < 100)]
    linarith
  have habsp := abs_le.mp hprod
  have hw0 : (0:ℚ) ≤ v * 100 := by positivity
  have hwle : v * 100 ≤ zpow2 11 := by
    rw [zpow2_eq]
    norm_num
    linarith
  have herr2 : |fl32 (v * 100) - v * 100| ≤ 1 / 8192 := by
    rw [← hz2]
    exact fl32_err_of_le hw0 hwle
  have habs2 := abs_le.mp herr2
  set w := fl32 (v * 100) with hw
  have hwnn : 0 ≤ w := fl32_nonneg hw0
  have hclose1 : (k:ℚ) - 1 / 2 ≤ w := by linarith
  have hclose2 : w ≤ (k:ℚ) + 1 / 2 := by linarith
  have hcomp : nvs_encode_gain (nvs_decode_gain k) = ⌊w⌋ := by
    rw [hdec, nvs_encode_gain_eq, ← hw, truncQ_nonneg_eq_floor hwnn]
  rw [hcomp]
  constructor
  · have hcast : ((k - 1 : ℤ) : ℚ) ≤ w := by push_cast; linarith
    exact Int.le_floor.mpr hcast
  · have h1 : ⌊w⌋ ≤ ⌊(k:ℚ) + 1 / 2⌋ := Int.floor_le_floor hclose2
    have h2 : ⌊(k:ℚ) + 1 / 2⌋ = k :=
      Int.floor_eq_iff.mpr ⟨by push_cast; linarith, by push_cast; linarith⟩
    omega

theorem nvs_roundtrip_exact_mul100 (j : ℤ) (h : j.natAbs ≤ 12) :
    nvs_encode_gain (nvs_decode_gain (100 * j)) = 100 * j := by
  have hdec : nvs_decode_gain (100 * j) = (j : ℚ) := by
    rw [nvs_decode_gain_eq (100 * j) (by omega)]
    have hq : ((100 * j : ℤ) : ℚ) / 100 = (j : ℚ) := by
      push_cast
      ring
    rw [hq, fl32_intCast_small j (by omega)]
  rw [hdec, nvs_encode_gain_eq]
  have hp : (j : ℚ) * 100 = ((100 * j : ℤ) : ℚ) := by
    push_cast
    ring
  rw [hp, fl32_intCast_small (100 * j) (by omega), truncQ_intCast]

theorem nvs_decode_gain_between (k : ℤ) (h : k.natAbs ≤ 1200) :
    -12 ≤ nvs_decode_gain k ∧ nvs_decode_gain k ≤ 12 := by
  rw [nvs_decode_gain_eq k (by omega)]
  have h12 : fl32 (12 : ℚ) = 12 := by
    have := fl32_intCast_small 12 (by norm_num)
    push_cast at this
    exact this
  have hm12 : fl32 (-12 : ℚ) = -12 := by
    have := fl32_intCast_small (-12) (by norm_num)
    push_cast at this
    exact this
  constructor
  · apply rep_le_fl32 _ hm12
    rw [neg_le, ← neg_div, div_le_iff₀ (by norm_num : (0:ℚ) < 100)]
    have hk : (-1200 : ℚ) ≤ (k : ℚ) := by
      have : (-1200 : ℤ) ≤ k := by omega
      exact_mod_cast this
    linarith
  · apply fl32_le_rep _ h12
    rw [div_le_iff₀ (by norm_num : (0:ℚ) < 100)]
    have : (k : ℚ) ≤ 1200 := by
      have : k ≤ (1200 : ℤ) := by omega
      exact_mod_cast this
    linarith

/-- Claim C3 is false on the code for 2-decimal values: the float nearest
0.53 dB is 0.52999997…, whose product with `100.0f` is the float
52.999996…, truncated by the `(int32_t)` cast to 52; loading therefore
yields the float of 0.52 dB, not the saved value. -/
theorem C3_counterexample :
    nvs_decode_gain (nvs_encode_gain (nvs_decode_gain 53)) ≠
      nvs_decode_gain 53 ∧
    nvs_encode_gain (nvs_decode_gain 53) = 52 := by
  refine ⟨by decide, by decide⟩

/-- Claim C3, amended: the enabled flag round-trips exactly; every numeric
parameter round-trips through the scale-by-100 integer encoding to within
one unit of the stored integer (0.01 dB); integer-dB values (stored
multiples of 100) round-trip exactly; and re-applying the loading setter's
clamp never distorts a loaded in-range value.  2-decimal values do NOT all
round-trip exactly (see the counterexample at 0.53 dB). -/
theorem C3_roundtrip_amended :
    (∀ b : Bool, nvs_decode_enabled (nvs_encode_enabled b) = b) ∧
    (∀ k : ℤ, -1200 ≤ k → k ≤ 1200 →
      (nvs_encode_gain (nvs_decode_gain k) - k).natAbs ≤ 1 ∧
      (k % 100 = 0 → nvs_encode_gain (nvs_decode_gain k) = k) ∧
      (pregain_set_gain (fun q => q) ⟨0, 1, true⟩ (nvs_decode_gain k)).2.gain_db =
        nvs_decode_gain k) := by
  constructor
  · intro b
    cases b <;> decide
  · intro k h1 h2
    have hodd : k < 0 →
        nvs_encode_gain (nvs_decode_gain k) =
          -nvs_encode_gain (nvs_decode_gain (-k)) := by
      intro _
      conv_lhs => rw [show k = -(-k) by ring]
      rw [nvs_decode_gain_neg, nvs_encode_gain_neg]
    refine ⟨?_, ?_, ?_⟩
    · rcases le_or_lt 0 k with hk | hk
      · have := nvs_roundtrip_close_nonneg k hk h2
        omega
      · have hb := nvs_roundtrip_close_nonneg (-k) (by omega) (by omega)
        have he := hodd hk
        omega
    · intro hmod
      obtain ⟨j, rfl⟩ : ∃ j, k = 100 * j := ⟨k / 100, by omega⟩
      exact nvs_roundtrip_exact_mul100 j (by omega)
    · obtain ⟨hlo, hhi⟩ := nvs_decode_gain_between k (by omega)
      rw [pregain_set_gain]
      have hnl : ¬(nvs_decode_gain k < -12) := not_lt.mpr hlo
      have hng : ¬(nvs_decode_gain k > 12) := not_lt.mpr hhi
      simp only [if_neg hnl, if_neg hng]

/-- Witness for C3's amended theorem at the stored integer -37 (-0.37 dB)
and the `false` flag. -/
theorem C3_roundtrip_amended_witness :
    nvs_decode_enabled (nvs_encode_enabled false) = false ∧
    ((nvs_encode_gain (nvs_decode_gain (-37)) - (-37)).natAbs ≤ 1 ∧
     ((-37 : ℤ) % 100 = 0 → nvs_encode_gain (nvs_decode_gain (-37)) = -37) ∧
     (pregain_set_gain (fun q => q) ⟨0, 1, true⟩
        (nvs_decode_gain (-37))).2.gain_db = nvs_decode_gain (-37)) :=
  ⟨C3_roundtrip_amended.1 false,
   C3_roundtrip_amended.2 (-37) (by norm_num) (by norm_num)⟩

theorem limiter_step_fields (lin2db : ℚ → ℚ) (lim : limiter_t) (p : ℤ × ℤ) :
    ((limiter_step lin2db lim p).2).lookahead_samples = lim.lookahead_samples ∧
    ((limiter_step lin2db lim p).2).write_index =
      (if lim.write_index + 2 ≥ lim.lookahead_samples then 0
       else lim.write_index + 2) ∧
    ((limiter_step lin2db lim p).2).attack_coeff = lim.attack_coeff ∧
    ((limiter_step lin2db lim p).2).release_coeff = lim.release_coeff ∧
    ((limiter_step lin2db lim p).2).threshold = lim.threshold ∧
    ((limiter_step lin2db lim p).2).enabled = lim.enabled :=
  ⟨rfl, rfl, rfl, rfl, rfl, rfl⟩

theorem limiter_step_wi_inv (lin2db : ℚ → ℚ) (lim : limiter_t) (p : ℤ × ℤ)
    (hL1 : 1 ≤ lim.lookahead_samples)
    (heven : lim.write_index % 2 = 0) :
    ((limiter_step lin2db lim p).2).write_index % 2 = 0 ∧
    ((limiter_step lin2db lim p).2).write_index < lim.lookahead_samples := by
  rw [(limiter_step_fields lin2db lim p).2.1]
  split_ifs with hc
  · exact ⟨by omega, by omega⟩
  · exact ⟨by omega, by omega⟩

theorem limiter_wi_trace_bound (lin2db : ℚ → ℚ) :
    ∀ (buf : List (ℤ × ℤ)) (lim : limiter_t),
    lim.lookahead_samples ≤ 512 → 1 ≤ lim.lookahead_samples →
    lim.write_index % 2 = 0 → lim.write_index < lim.lookahead_samples →
    (∀ i ∈ limiter_wi_trace lin2db lim buf, i + 1 < 512) ∧
    ((procMap (limiter_step lin2db) lim buf).2).write_index % 2 = 0 ∧
    ((procMap (limiter_step lin2db) lim buf).2).write_index <
      lim.lookahead_samples ∧
    ((procMap (limiter_step lin2db) lim buf).2).lookahead_samples =
      lim.lookahead_samples := by
  intro buf
  induction buf with
  | nil =>
    intro lim h1 h2 h3 h4
    refine ⟨?_, h3, h4, rfl⟩
    intro i hi
    simp [limiter_wi_trace] at hi
  | cons p rest ih =>
    intro lim h1 h2 h3 h4
    have hf := limiter_step_fields lin2db lim p
    have hstep := limiter_step_wi_inv lin2db lim p h2 h3
    obtain ⟨htr, hm, hlt, hLeq⟩ := ih ((limiter_step lin2db lim p).2)
      (by rw [hf.1]; exact h1) (by rw [hf.1]; exact h2) hstep.1
      (by rw [hf.1]; exact hstep.2)
    have hcons : (procMap (limiter_step lin2db) lim (p :: rest)).2 =
        (procMap (limiter_step lin2db) ((limiter_step lin2db lim p).2) rest).2 :=
      rfl
    refine ⟨?_, by rw [hcons]; exact hm, by rw [hcons, hf.1] at *; exact hlt,
      by rw [hcons, hf.1] at *; exact hLeq⟩
    intro i hi
    rw [limiter_wi_trace] at hi
    rcases List.mem_cons.mp hi with hv | hv
    · subst hv
      omega
    · exact htr i hv

/-- Claim C10: for every sample rate `limiter_init` caps the look-ahead
length at `MAX_LOOKAHEAD_SAMPLES` = 512 (441, an odd length, at 44.1 kHz
and 480 at 48 kHz), and across any sequence of `limiter_process` calls the
write cursor stays even and inside `[0, lookahead_samples)`, so every
buffer access at `write_index` and `write_index + 1` stays inside the
512-element array — the wrap to 0 never lets the cursor reach an
out-of-bounds slot even for an odd look-ahead length (hypotheses:
`lookahead_samples ≥ 1`, i.e. a sample rate of at least 100 Hz; below that
the computed length is 0 and the cursor simply stays at 0). -/
theorem C10_lookahead_safety :
    (∀ (fexp fdb2lin : ℚ → ℚ) (fs : ℕ),
      (limiter_init fexp fdb2lin fs).lookahead_samples ≤ 512 ∧
      (limiter_init fexp fdb2lin fs).write_index = 0) ∧
    (limiter_init (fun q => q) (fun q => q) 44100).lookahead_samples = 441 ∧
    (limiter_init (fun q => q) (fun q => q) 48000).lookahead_samples = 480 ∧
    (∀ (lin2db : ℚ → ℚ) (lim : limiter_t) (buf : List (ℤ × ℤ)),
      lim.lookahead_samples ≤ 512 → 1 ≤ lim.lookahead_samples →
      lim.write_index % 2 = 0 → lim.write_index < lim.lookahead_samples →
      (∀ i ∈ limiter_wi_trace lin2db lim buf, i + 1 < 512) ∧
      ((limiter_process lin2db lim buf).2).write_index % 2 = 0 ∧
      ((limiter_process lin2db lim buf).2).write_index <
        ((limiter_process lin2db lim buf).2).lookahead_samples ∧
      ((limiter_process lin2db lim buf).2).lookahead_samples =
        lim.lookahead_samples) := by
  refine ⟨?_, by decide, by decide, ?_⟩
  · intro fexp fdb2lin fs
    constructor
    · unfold limiter_init
      dsimp only
      split_ifs with h
      · omega
      · omega
    · rfl
  · intro lin2db lim buf h1 h2 h3 h4
    obtain ⟨htr, hm, hlt, hLeq⟩ := limiter_wi_trace_bound lin2db buf lim h1 h2 h3 h4
    rw [limiter_process]
    cases hE : lim.enabled with
    | false =>
      simp only [Bool.not_false, if_true]
      exact ⟨htr, h3, h4, trivial⟩
    | true =>
      simp only [Bool.not_true, Bool.false_eq_true, if_false]
      exact ⟨htr, hm, by rw [hLeq]; exact hlt, hLeq⟩

/-- Witness for C10's process part: the freshly initialised 48 kHz limiter
(look-ahead 480) over a two-frame block. -/
theorem C10_lookahead_safety_witness :
    (∀ i ∈ limiter_wi_trace (fun q => q)
        (limiter_init (fun q => q) (fun q => q) 48000) [(5, -5), (7, 8)],
      i + 1 < 512) ∧
    ((limiter_process (fun q => q)
        (limiter_init (fun q => q) (fun q => q) 48000) [(5, -5), (7, 8)]).2).write_index % 2 = 0 ∧
    ((limiter_process (fun q => q)
        (limiter_init (fun q => q) (fun q => q) 48000) [(5, -5), (7, 8)]).2).write_index <
      ((limiter_process (fun q => q)
        (limiter_init (fun q => q) (fun q => q) 48000) [(5, -5), (7, 8)]).2).lookahead_samples ∧
    ((limiter_process (fun q => q)
        (limiter_init (fun q => q) (fun q => q) 48000) [(5, -5), (7, 8)]).2).lookahead_samples =
      (limiter_init (fun q => q) (fun q => q) 48000).lookahead_samples :=
  C10_lookahead_safety.2.2.2 (fun q => q)
    (limiter_init (fun q => q) (fun q => q) 48000) [(5, -5), (7, 8)]
    (by decide) (by decide) (by decide) (by decide)

theorem fl32_one : fl32 1 = 1 := by decide

theorem MIN_ENVELOPE_pos : (0 : ℚ) < MIN_ENVELOPE := by decide

theorem MIN_ENVELOPE_le_one : MIN_ENVELOPE ≤ 1 := by decide

theorem limiter_desired_gain_bounds (TL peak : ℚ) :
    0 ≤ limiter_desired_gain TL peak ∧ limiter_desired_gain TL peak ≤ 1 := by
  rw [limiter_desired_gain]
  dsimp only
  split_ifs with h1 h2
  · exact ⟨le_of_lt MIN_ENVELOPE_pos, MIN_ENVELOPE_le_one⟩
  · constructor
    · have := MIN_ENVELOPE_pos
      have := not_lt.mp h2
      linarith
    · rw [qdiv_eq]
      exact fl32_le_rep (le_of_lt ((div_lt_one h1.2).mpr h1.1)) fl32_one
  · exact ⟨by norm_num, le_refl 1⟩

theorem limiter_env_update_bounds (a r e d : ℚ)
    (hca : fl32 a = a) (ha0 : 0 ≤ a) (ha1 : a ≤ 1)
    (hsa : fl32 (qsub 1 a) = qsub 1 a)
    (hcr : fl32 r = r) (hr0 : 0 ≤ r) (hr1 : r ≤ 1)
    (hsr : fl32 (qsub 1 r) = qsub 1 r)
    (he0 : 0 ≤ e) (he1 : e ≤ 1) (hd0 : 0 ≤ d) (hd1 : d ≤ 1) :
    0 ≤ limiter_env_update a r e d ∧ limiter_env_update a r e d ≤ 1 := by
  have key : ∀ c : ℚ, fl32 c = c → 0 ≤ c → c ≤ 1 → fl32 (qsub 1 c) = qsub 1 c →
      0 ≤ fl32 (qadd (fl32 (qmul c e)) (fl32 (qmul (fl32 (qsub 1 c)) d))) ∧
      fl32 (qadd (fl32 (qmul c e)) (fl32 (qmul (fl32 (qsub 1 c)) d))) ≤ 1 := by
    intro c hc hc0 hc1 hsc
    have hsc1 : (0:ℚ) ≤ 1 - c := by linarith
    have ht1a : 0 ≤ fl32 (qmul c e) := by
      rw [qmul_eq]
      exact fl32_nonneg (mul_nonneg hc0 he0)
    have ht1b : fl32 (qmul c e) ≤ c := by
      rw [qmul_eq]
      exact fl32_le_rep (mul_le_of_le_one_right hc0 he1) hc
    have hscq : fl32 (1 - c) = 1 - c := by
      rw [← qsub_eq]
      exact hsc
    have ht2a : 0 ≤ fl32 (qmul (fl32 (qsub 1 c)) d) := by
      rw [qsub_eq, hscq, qmul_eq]
      exact fl32_nonneg (mul_nonneg hsc1 hd0)
    have ht2b : fl32 (qmul (fl32 (qsub 1 c)) d) ≤ 1 - c := by
      rw [qsub_eq, hscq, qmul_eq]
      exact fl32_le_rep (mul_le_of_le_one_right hsc1 hd1) hscq
    constructor
    · rw [qadd_eq]
      exact fl32_nonneg (by linarith)
    · rw [qadd_eq]
      exact fl32_le_rep (by linarith) fl32_one
  rw [limiter_env_update]
  split_ifs with hb1 hb2 hb3
  · exact ⟨le_of_lt MIN_ENVELOPE_pos, MIN_ENVELOPE_le_one⟩
  · exact key a hca ha0 ha1 hsa
  · exact ⟨le_of_lt MIN_ENVELOPE_pos, MIN_ENVELOPE_le_one⟩
  · exact key r hcr hr0 hr1 hsr

theorem limiter_gain_q16_bounds (e : ℚ) (he0 : 0 ≤ e) (he1 : e ≤ 1) :
    0 ≤ limiter_gain_q16 e ∧ limiter_gain_q16 e ≤ 65536 := by
  have hhalf : (Rat.divInt 1 2 : ℚ) = 1 / 2 := by
    rw [Rat.divInt_eq_div]
    norm_num
  have h65536 : fl32 (65536 : ℚ) = 65536 := by
    have := fl32_intCast_small 65536 (by norm_num)
    push_cast at this
    exact this
  have hdi : (Rat.divInt 131073 2 : ℚ) = (131073 : ℚ) / 2 := by
    rw [Rat.divInt_eq_div]
    norm_num
  have hhalffix : fl32 ((131073 : ℚ) / 2) = (131073 : ℚ) / 2 := by
    rw [← hdi]
    decide
  have h1a : 0 ≤ fl32 (qmul e (Rat.divInt 65536 1)) := by
    rw [qmul_eq, divInt_one_eq]
    exact fl32_nonneg (mul_nonneg he0 (by norm_num))
  have h1b : fl32 (qmul e (Rat.divInt 65536 1)) ≤ 65536 := by
    rw [qmul_eq, divInt_one_eq]
    refine fl32_le_rep ?_ h65536
    push_cast
    nlinarith
  have h2a : 0 ≤ fl32 (qadd (fl32 (qmul e (Rat.divInt 65536 1))) (Rat.divInt 1 2)) := by
    rw [qadd_eq, hhalf]
    exact fl32_nonneg (by linarith)
  have h2b : fl32 (qadd (fl32 (qmul e (Rat.divInt 65536 1))) (Rat.divInt 1 2)) ≤
      (131073 : ℚ) / 2 := by
    rw [qadd_eq, hhalf]
    exact fl32_le_rep (by linarith) hhalffix
  rw [limiter_gain_q16]
  rw [truncQ_nonneg_eq_floor h2a]
  constructor
  · exact Int.floor_nonneg.mpr h2a
  · have hmono := Int.floor_le_floor h2b
    have hcomp : ⌊(131073 : ℚ) / 2⌋ = 65536 :=
      Int.floor_eq_iff.mpr ⟨by norm_num, by norm_num⟩
    omega

theorem limiter_apply_gain_le (v gq : ℤ) (M : ℕ) (hv : v.natAbs ≤ M)
    (hg0 : 0 ≤ gq) (hg1 : gq ≤ 65536) :
    (limiter_apply_gain v gq).natAbs ≤ M := by
  rw [limiter_apply_gain, asr]
  have h2 : (2:ℤ) ^ 16 = 65536 := by norm_num
  rw [h2, Int.fdiv_eq_ediv _ (by norm_num : (0:ℤ) ≤ 65536)]
  have hv1 : v ≤ (M:ℤ) := by omega
  have hv2 : -(M:ℤ) ≤ v := by omega
  have hub : v * gq ≤ (M:ℤ) * 65536 := by
    calc v * gq ≤ (M:ℤ) * gq := mul_le_mul_of_nonneg_right hv1 hg0
      _ ≤ (M:ℤ) * 65536 := mul_le_mul_of_nonneg_left hg1 (by positivity)
  have hlb : -(M:ℤ) * 65536 ≤ v * gq := by
    calc -(M:ℤ) * 65536 ≤ -(M:ℤ) * gq :=
        mul_le_mul_of_nonpos_left hg1 (by omega)
      _ ≤ v * gq := mul_le_mul_of_nonneg_right hv2 hg0
  have hq1 : v * gq / 65536 ≤ (M:ℤ) := by
    have h := Int.ediv_le_ediv (by norm_num : (0:ℤ) < 65536) hub
    rwa [Int.mul_ediv_cancel _ (by norm_num : (65536:ℤ) ≠ 0)] at h
  have hq2 : -(M:ℤ) ≤ v * gq / 65536 := by
    have h := Int.ediv_le_ediv (by norm_num : (0:ℤ) < 65536) hlb
    rwa [Int.mul_ediv_cancel _ (by norm_num : (65536:ℤ) ≠ 0)] at h
  rw [clampI32]
  split_ifs <;> omega

theorem getD_natAbs_le {M : ℕ} :
    ∀ (l : List ℤ), (∀ v ∈ l, v.natAbs ≤ M) → ∀ i : ℕ, ((l.getD i 0).natAbs ≤ M)
  | [], _, i => by simp [List.getD]
  | x :: xs, h, 0 => h x (List.mem_cons_self x xs)
  | x :: xs, h, i + 1 =>
    getD_natAbs_le xs (fun v hv => h v (List.mem_cons_of_mem x hv)) i

theorem set_natAbs_le {M : ℕ} (l : List ℤ) (h : ∀ v ∈ l, v.natAbs ≤ M)
    (i : ℕ) (x : ℤ) (hx : x.natAbs ≤ M) : ∀ v ∈ l.set i x, v.natAbs ≤ M := by
  intro v hv
  rcases List.mem_or_eq_of_mem_set hv with h1 | h1
  · exact h v h1
  · rw [h1]
    exact hx

theorem limiter_step_envelope_eq (lin2db : ℚ → ℚ) (lim : limiter_t) (p : ℤ × ℤ) :
    ((limiter_step lin2db lim p).2).envelope =
      limiter_env_update lim.attack_coeff lim.release_coeff lim.envelope
        (limiter_desired_gain
          (fl32 (qmul lim.threshold (Rat.divInt 8388608 1)))
          (fl32 (Rat.divInt ((max p.1.natAbs p.2.natAbs : ℕ) : ℤ) 1))) := rfl

theorem limiter_step_out_eq (lin2db : ℚ → ℚ) (lim : limiter_t) (p : ℤ × ℤ) :
    (limiter_step lin2db lim p).1 =
      (limiter_apply_gain (lim.lookahead_buffer.getD lim.write_index 0)
        (limiter_gain_q16 (((limiter_step lin2db lim p).2).envelope)),
       limiter_apply_gain (lim.lookahead_buffer.getD (lim.write_index + 1) 0)
        (limiter_gain_q16 (((limiter_step lin2db lim p).2).envelope))) := rfl

theorem limiter_step_buffer_eq (lin2db : ℚ → ℚ) (lim : limiter_t) (p : ℤ × ℤ) :
    ((limiter_step lin2db lim p).2).lookahead_buffer =
      (lim.lookahead_buffer.set lim.write_index p.1).set
        (lim.write_index + 1) p.2 := rfl

/-- The coefficient-shape facts the never-amplify argument needs: the
attack and release smoothing coefficients are floats in [0, 1] whose
one's-complement `1 - c` is also computed exactly by the float subtraction
(true of the values `expf(-1/(t*fs))` produces at practical sample rates:
`c ∈ [1/2, 1)` makes `1.0f - c` exact by the Sterbenz property). -/
def limiter_coeffs_ok (lim : limiter_t) : Prop :=
  fl32 lim.attack_coeff = lim.attack_coeff ∧
  0 ≤ lim.attack_coeff ∧ lim.attack_coeff ≤ 1 ∧
  fl32 (qsub 1 lim.attack_coeff) = qsub 1 lim.attack_coeff ∧
  fl32 lim.release_coeff = lim.release_coeff ∧
  0 ≤ lim.release_coeff ∧ lim.release_coeff ≤ 1 ∧
  fl32 (qsub 1 lim.release_coeff) = qsub 1 lim.release_coeff

/-- Invariant carried through `limiter_process`: envelope in [0, 1] and
every look-ahead slot bounded by `M`. -/
def limiter_good (M : ℕ) (lim : limiter_t) : Prop :=
  0 ≤ lim.envelope ∧ lim.envelope ≤ 1 ∧
  ∀ v ∈ lim.lookahead_buffer, v.natAbs ≤ M

theorem limiter_step_no_amplify (lin2db : ℚ → ℚ) (lim : limiter_t) (p : ℤ × ℤ)
    (M : ℕ) (hco : limiter_coeffs_ok lim) (hg : limiter_good M lim)
    (hp1 : p.1.natAbs ≤ M) (hp2 : p.2.natAbs ≤ M) :
    ((limiter_step lin2db lim p).1.1.natAbs ≤ M ∧
     (limiter_step lin2db lim p).1.2.natAbs ≤ M) ∧
    limiter_good M ((limiter_step lin2db lim p).2) := by
  obtain ⟨hca, ha0, ha1, hsa, hcr, hr0, hr1, hsr⟩ := hco
  obtain ⟨he0, he1, hbuf⟩ := hg
  obtain ⟨hd0, hd1⟩ := limiter_desired_gain_bounds
    (fl32 (qmul lim.threshold (Rat.divInt 8388608 1)))
    (fl32 (Rat.divInt ((max p.1.natAbs p.2.natAbs : ℕ) : ℤ) 1))
  obtain ⟨hE0, hE1⟩ := limiter_env_update_bounds lim.attack_coeff
    lim.release_coeff lim.envelope _ hca ha0 ha1 hsa hcr hr0 hr1 hsr
    he0 he1 hd0 hd1
  have henv := limiter_step_envelope_eq lin2db lim p
  have hE0' : 0 ≤ ((limiter_step lin2db lim p).2).envelope := by
    rw [henv]
    exact hE0
  have hE1' : ((limiter_step lin2db lim p).2).envelope ≤ 1 := by
    rw [henv]
    exact hE1
  obtain ⟨hq0, hq1⟩ := limiter_gain_q16_bounds _ hE0' hE1'
  constructor
  · rw [limiter_step_out_eq]
    exact ⟨limiter_apply_gain_le _ _ M (getD_natAbs_le _ hbuf _) hq0 hq1,
      limiter_apply_gain_le _ _ M (getD_natAbs_le _ hbuf _) hq0 hq1⟩
  · refine ⟨hE0', hE1', ?_⟩
    rw [limiter_step_buffer_eq]
    exact set_natAbs_le _ (set_natAbs_le _ hbuf _ _ hp1) _ _ hp2

theorem limiter_step_coeffs_ok (lin2db : ℚ → ℚ) (lim : limiter_t) (p : ℤ × ℤ)
    (hco : limiter_coeffs_ok lim) :
    limiter_coeffs_ok ((limiter_step lin2db lim p).2) := by
  have h1 : ((limiter_step lin2db lim p).2).attack_coeff = lim.attack_coeff := rfl
  have h2 : ((limiter_step lin2db lim p).2).release_coeff = lim.release_coeff := rfl
  rw [limiter_coeffs_ok, h1, h2]
  exact hco

theorem limiter_procMap_no_amplify (lin2db : ℚ → ℚ) (M : ℕ) :
    ∀ (buf : List (ℤ × ℤ)) (lim : limiter_t),
    limiter_coeffs_ok lim → limiter_good M lim →
    (∀ p ∈ buf, p.1.natAbs ≤ M ∧ p.2.natAbs ≤ M) →
    ∀ q ∈ (procMap (limiter_step lin2db) lim buf).1,
      q.1.natAbs ≤ M ∧ q.2.natAbs ≤ M := by
  intro buf
  induction buf with
  | nil =>
    intro lim _ _ _ q hq
    simp [procMap] at hq
  | cons p rest ih =>
    intro lim hco hg hb q hq
    have hp := hb p (List.mem_cons_self p rest)
    obtain ⟨hout, hg'⟩ := limiter_step_no_amplify lin2db lim p M hco hg hp.1 hp.2
    have hcons : (procMap (limiter_step lin2db) lim (p :: rest)).1 =
        (limiter_step lin2db lim p).1 ::
          (procMap (limiter_step lin2db) ((limiter_step lin2db lim p).2) rest).1 :=
      rfl
    rw [hcons] at hq
    rcases List.mem_cons.mp hq with hv | hv
    · rw [hv]
      exact hout
    · exact ih ((limiter_step lin2db lim p).2)
        (limiter_step_coeffs_ok lin2db lim p hco) hg'
        (fun r hr => hb r (List.mem_cons_of_mem p hr)) q hv

/-- Claim C2, amended: the limiter never amplifies.  With the envelope at
most 1 (as at initialisation and after every reset) and smoothing
coefficients that are floats in [0, 1] with exact `1 - c` (see
`limiter_coeffs_ok`), every sample `limiter_process` writes has magnitude
at most the largest magnitude `M` among the prior look-ahead buffer
contents and the block's input samples.  The bound claimed by the spec —
threshold plus one quantization step — does not hold (see the
counterexample): a transient that leaves the look-ahead delay after the
envelope has released is scaled by a gain near 1, not by threshold/peak. -/
theorem C2_limiter_no_amplify (lin2db : ℚ → ℚ) (lim : limiter_t)
    (block : List (ℤ × ℤ)) (M : ℕ)
    (hco : limiter_coeffs_ok lim) (hg : limiter_good M lim)
    (hb : ∀ p ∈ block, p.1.natAbs ≤ M ∧ p.2.natAbs ≤ M) :
    ∀ q ∈ (limiter_process lin2db lim block).1,
      q.1.natAbs ≤ M ∧ q.2.natAbs ≤ M := by
  rw [limiter_process]
  split
  · intro q hq
    exact hb q (by simpa using hq)
  · exact limiter_procMap_no_amplify lin2db M block lim hco hg hb

/-- A small concrete limiter state for exercising the never-amplify bound:
four look-ahead slots, attack 3/4, release 1/2 (exact floats), envelope 1. -/
def limC2w : limiter_t :=
  { threshold := Rat.divInt 1 2
    threshold_db := -6
    attack_coeff := Rat.divInt 3 4
    release_coeff := Rat.divInt 1 2
    lookahead_samples := 4
    envelope := 1
    lookahead_buffer := [0, 0, 0, 0]
    write_index := 0
    peak_reduction_db := 0
    clip_prevented_count := 0
    stats_update_counter := 0
    min_envelope := 1
    enabled := true
    is_triggered := false }

theorem C2_limiter_no_amplify_witness :
    limiter_coeffs_ok limC2w ∧ limiter_good 100 limC2w ∧
    ∀ q ∈ (limiter_process (fun _ => 0) limC2w [((50 : ℤ), (-100 : ℤ))]).1,
      q.1.natAbs ≤ 100 ∧ q.2.natAbs ≤ 100 := by
  have hco : limiter_coeffs_ok limC2w := by
    unfold limiter_coeffs_ok
    decide
  have hg : limiter_good 100 limC2w := by
    unfold limiter_good
    decide
  exact ⟨hco, hg, C2_limiter_no_amplify (fun _ => 0) limC2w
    [((50 : ℤ), (-100 : ℤ))] 100 hco hg (by decide)⟩

/-- The limiter state `limiter_init` produces at a sample rate of 8000 Hz
with the threshold set to -12 dB, abstracted over the three values that
come out of `expf`/`powf`: look-ahead 80 samples, envelope 1, buffer
zeroed.  (At 8000 Hz the look-ahead arithmetic gives exactly 80.) -/
def limC2spec (a r thr : ℚ) : limiter_t :=
  { threshold := thr
    threshold_db := -12
    attack_coeff := a
    release_coeff := r
    lookahead_samples := 80
    envelope := 1
    lookahead_buffer := List.replicate 512 0
    write_index := 0
    peak_reduction_db := 0
    clip_prevented_count := 0
    stats_update_counter := 0
    min_envelope := 1
    enabled := true
    is_triggered := false }

/-- The spec's claim C2, formalised: with the limiter enabled at 8000 Hz
and -12 dB (smoothing coefficients any exact floats in the intervals that
contain `expf(-1/(0.0005*8000))` and `expf(-1/(0.05*8000))`, threshold any
exact float in [1/4, 1]), every output sample's magnitude stays within the
linear threshold scaled to 24-bit full scale plus one quantization step. -/
def C2_claim_statement : Prop :=
  ∀ a r thr : ℚ,
    fl32 a = a → Rat.divInt 77 100 ≤ a → a ≤ Rat.divInt 78 100 →
    fl32 r = r → Rat.divInt 99 100 ≤ r → r ≤ Rat.divInt 998 1000 →
    fl32 thr = thr → Rat.divInt 1 4 ≤ thr → thr ≤ 1 →
    ∀ block : List (ℤ × ℤ),
      (∀ p ∈ block, p.1.natAbs ≤ 8388608 ∧ p.2.natAbs ≤ 8388608) →
      ∀ q ∈ (limiter_process (fun _ => 0) (limC2spec a r thr) block).1,
        (q.1.natAbs : ℚ) ≤ fl32 (qmul thr (Rat.divInt 8388608 1)) + 1 ∧
        (q.2.natAbs : ℚ) ≤ fl32 (qmul thr (Rat.divInt 8388608 1)) + 1

set_option maxRecDepth 4000 in
/-- Claim C2 as stated fails: a full-scale impulse enters the 80-sample
look-ahead delay while the envelope is still near 1; over the next 40
frames of silence the release smoothing pulls the envelope back up, so
when the impulse leaves the delay it is scaled by a gain of about 0.85
rather than threshold/peak.  With the exact float values of
`expf(-0.25)`, `expf(-0.0025)` and `db_to_linear(-12)` at 8000 Hz, the
output sample 7131392 exceeds the allowed bound 2107123 + 1 by a factor
of more than 3. -/
theorem C2_counterexample : ¬ C2_claim_statement := by
  intro h
  have hb : ∀ p ∈ ((8388608, 8388608) :: List.replicate 40 ((0 : ℤ), (0 : ℤ))),
      p.1.natAbs ≤ 8388608 ∧ p.2.natAbs ≤ 8388608 := by decide
  have hmem : ((7131392 : ℤ), (7131392 : ℤ)) ∈
      (limiter_process (fun _ => 0)
        (limC2spec (Rat.divInt 13066109 16777216) (Rat.divInt 16735325 16777216)
          (Rat.divInt 2107123 8388608))
        ((8388608, 8388608) :: List.replicate 40 (0, 0))).1 := by decide
  have hout := h (Rat.divInt 13066109 16777216) (Rat.divInt 16735325 16777216)
    (Rat.divInt 2107123 8388608) (by decide) (by decide) (by decide) (by decide)
    (by decide) (by decide) (by decide) (by decide) (by decide)
    ((8388608, 8388608) :: List.replicate 40 (0, 0)) hb
    ((7131392 : ℤ), (7131392 : ℤ)) hmem
  have hTL : fl32 (qmul (Rat.divInt 2107123 8388608) (Rat.divInt 8388608 1)) =
      Rat.divInt 2107123 1 := by decide
  rw [hTL, divInt_one_eq] at hout
  have hled := hout.1
  norm_num at hled
